import Mathlib

/-
  Shallow embedding of the market-making card game server
  (src/backend/app.py) and verification of the frozen claims.

  Modelling conventions:
  * Python dicts that preserve insertion order (`Table.players`,
    `Table.left_players`) are association lists `List (String × Player)`.
  * Money (stacks, prices, pnl) is modelled with exact rationals.
  * Fallible operations (popping from a possibly empty deck) return
    `Option`; a `none` corresponds to a Python IndexError, which aborts
    the handler without producing a successor state.
  * Randomness (deck shuffles, seat choice, fresh uuids) is external
    nondeterminism: the shuffled deck / chosen seat / fresh pid are
    parameters of the corresponding step, constrained by hypotheses.
-/

namespace CardsMM

/-- Rank values, from `VALUE_MAP` (A=1 .. K=13); a character outside the
map yields 0 (the Python raises a KeyError there, but only cards from
`fresh_deck` ever occur). -/
def rankValue (c : Char) : ℚ :=
  if c = 'A' then 1
  else if c = '2' then 2
  else if c = '3' then 3
  else if c = '4' then 4
  else if c = '5' then 5
  else if c = '6' then 6
  else if c = '7' then 7
  else if c = '8' then 8
  else if c = '9' then 9
  else if c = 'T' then 10
  else if c = 'J' then 11
  else if c = 'Q' then 12
  else if c = 'K' then 13
  else 0

/-- Rank characters in the iteration order of `VALUE_MAP`. -/
def ranks : List Char := ['A', '2', '3', '4', '5', '6', '7', '8', '9', 'T', 'J', 'Q', 'K']

/-- `SUITS = "CDHS"`. -/
def suits : List Char := ['C', 'D', 'H', 'S']

/-- `fresh_deck`: all 52 rank+suit strings, ranks outer, suits inner. -/
def fresh_deck : List String := ranks.flatMap (fun r => suits.map (fun s => String.mk [r, s]))

/-- `card_value(card) = VALUE_MAP[card[0]]`. -/
def card_value (card : String) : ℚ :=
  match card.toList with
  | [] => 0
  | c :: _ => rankValue c

/-- ASCII lowercase of a character (`str.lower()` on the ASCII names the
server compares). -/
def lowerChar (c : Char) : Char :=
  if 'A' ≤ c ∧ c ≤ 'Z' then Char.ofNat (c.toNat + 32) else c

/-- ASCII `str.lower()`. -/
def lowerStr (s : String) : String := String.mk (s.toList.map lowerChar)

/-- The `Player` entity (`Player.__init__`).  `last_seen` is an abstract
timestamp, set only on disconnect. -/
structure Player where
  pid : String
  name : String
  seat : Nat
  stack : ℚ
  buy_in : ℚ
  pnl : ℚ
  cards : List String
  status : String
  last_seen : Option ℚ
  deriving DecidableEq

/-- A trade-log entry `{pid, side, price, round}`. -/
structure Trade where
  pid : String
  side : String
  price : ℚ
  round : Nat
  deriving DecidableEq

/-- A quote-log entry `{bid, ask, round, maker}`. -/
structure Quote where
  bid : ℚ
  ask : ℚ
  round : Nat
  maker : String
  deriving DecidableEq

/-- An archived hand summary (`hand_record` in `Table.new_hand`). -/
structure HandRecord where
  hand_number : Nat
  trades : List Trade
  quotes : List Quote
  final_total : Option ℚ
  maker : Option String
  timestamp : ℚ
  deriving DecidableEq

/-- The `Table` entity. -/
structure Table where
  tid : String
  players : List (String × Player)
  seat_order : List String
  maker_idx : Nat
  deck : List String
  community : List String
  round_num : Nat
  trades : List Trade
  quotes : List Quote
  round_trades : List String
  hand_number : Nat
  game_history : List HandRecord
  max_history_hands : Nat
  left_players : List (String × Player)
  deriving DecidableEq

/-- A freshly constructed table (`Table.__init__`); `deck` is the result
of shuffling a fresh deck. -/
def initTable (tid : String) (deck : List String) : Table :=
  { tid := tid
    players := []
    seat_order := []
    maker_idx := 0
    deck := deck
    community := []
    round_num := 0
    trades := []
    quotes := []
    round_trades := []
    hand_number := 0
    game_history := []
    max_history_hands := 100
    left_players := [] }

/-- Lookup in an insertion-ordered dict (first matching key). -/
def lookupA {α : Type} : List (String × α) → String → Option α
  | [], _ => none
  | (k, v) :: rest, key => if k = key then some v else lookupA rest key

/-- Replace the value at a key (first occurrence); identity if absent. -/
def updateA {α : Type} : List (String × α) → String → α → List (String × α)
  | [], _, _ => []
  | (k, v) :: rest, key, a => if k = key then (k, a) :: rest else (k, v) :: updateA rest key a

/-- Dict assignment `d[key] = a`: update if present, else append. -/
def insertA {α : Type} : List (String × α) → String → α → List (String × α)
  | [], key, a => [(key, a)]
  | (k, v) :: rest, key, a => if k = key then (k, a) :: rest else (k, v) :: insertA rest key a

/-- `del d[key]`: remove the first entry with the key. -/
def eraseA {α : Type} : List (String × α) → String → List (String × α)
  | [], _ => []
  | (k, v) :: rest, key => if k = key then rest else (k, v) :: eraseA rest key

/-- Python `list.pop()`: removes and returns the LAST element. -/
def popLast {α : Type} (l : List α) : Option (α × List α) :=
  match l.getLast? with
  | none => none
  | some a => some (a, l.dropLast)

/-- `Table.maker_pid`: `seat_order[maker_idx]`, `None` for an empty
rotation (an out-of-range index, impossible in reachable states, is
also `none` where Python would raise). -/
def maker_pid (t : Table) : Option String :=
  t.seat_order.get? t.maker_idx

/-- `Table.evaluate_total`: community card values plus all currently
seated players' hidden card values. -/
def evaluate_total (t : Table) : ℚ :=
  (t.community.map card_value).sum + (t.players.map (fun q => (q.2.cards.map card_value).sum)).sum

/-- Per-trade pnl at settlement: `diff = total - price`,
`pnl = diff` for a buy, `-diff` otherwise. -/
def tradePnl (total : ℚ) (tr : Trade) : ℚ :=
  if tr.side = "buy" then total - tr.price else -(total - tr.price)

/-- `if stack < 0: status = "eliminated"`, applied after a pnl update. -/
def elimIfNeg (p : Player) : Player :=
  if p.stack < 0 then { p with status := "eliminated" } else p

/-- One iteration of the settlement loop: skip trades whose pid is no
longer seated; otherwise apply pnl to the trader's pnl and stack,
mark elimination on a negative stack, and subtract the pnl from the
running maker adjustment. -/
def settleTradeStep (total : ℚ) (acc : List (String × Player) × ℚ) (tr : Trade) :
    List (String × Player) × ℚ :=
  match lookupA acc.1 tr.pid with
  | none => acc
  | some p =>
    let pnl := tradePnl total tr
    (updateA acc.1 tr.pid (elimIfNeg { p with pnl := p.pnl + pnl, stack := p.stack + pnl }),
     acc.2 - pnl)

/-- `Table.settle`: apply every seated trade's pnl, then apply the
accumulated maker adjustment once to the maker (when seated). -/
def settle (t : Table) : Table :=
  let total := evaluate_total t
  let res := t.trades.foldl (settleTradeStep total) (t.players, 0)
  match maker_pid t with
  | none => { t with players := res.1 }
  | some m =>
    match lookupA res.1 m with
    | none => { t with players := res.1 }
    | some mk =>
      { t with players := (updateA res.1 m
          (elimIfNeg { mk with pnl := mk.pnl + res.2, stack := mk.stack + res.2 })) }

/-- Statuses of players who are still in the hand. -/
def playingStatuses : List String := ["active", "pending_away", "pending_leaving"]

/-- pids of players with status active / pending_away / pending_leaving,
in map order (`active_players` in `all_players_traded_this_round`). -/
def active_pids (t : Table) : List String :=
  (t.players.filter (fun q => q.2.status ∈ playingStatuses)).map (fun q => q.1)

/-- The above minus the current maker (`non_maker_players`). -/
def non_maker_pids (t : Table) : List String :=
  (active_pids t).filter (fun x => maker_pid t ≠ some x)

/-- `Table.all_players_traded_this_round`. -/
def all_players_traded (t : Table) : Bool :=
  decide ((non_maker_pids t).length ≤ (t.round_trades.filter (fun x => x ∈ non_maker_pids t)).length)

/-- `Table.next_round`: reveal one community card while `round < 3`,
always increment the round and clear the per-round trade set. -/
def next_round (t : Table) : Option Table :=
  if t.round_num < 3 then
    match popLast t.deck with
    | none => none
    | some (c, d) =>
      some { t with deck := d, community := t.community ++ [c],
                    round_num := t.round_num + 1, round_trades := [] }
  else
    some { t with round_num := t.round_num + 1, round_trades := [] }

/-- `Table.rotate_maker`. -/
def rotate_maker (t : Table) : Table :=
  if t.seat_order = [] then t
  else { t with maker_idx := (t.maker_idx + 1) % t.seat_order.length }

/-- First phase of `Table.new_hand`: archive the finished hand when it
had any trade or quote activity, evicting the oldest record beyond the
cap. -/
def archiveHand (t : Table) (now : ℚ) : Table :=
  if t.trades ≠ [] ∨ t.quotes ≠ [] then
    let rec0 : HandRecord :=
      { hand_number := t.hand_number
        trades := t.trades
        quotes := t.quotes
        final_total := if 4 ≤ t.round_num then some (evaluate_total t) else none
        maker := maker_pid t
        timestamp := now }
    let h := t.game_history ++ [rec0]
    { t with game_history := if t.max_history_hands < h.length then h.drop 1 else h }
  else t

/-- pids with status `pending_leaving`, in map order. -/
def pendingLeavers (t : Table) : List String :=
  (t.players.filter (fun q => q.2.status = "pending_leaving")).map (fun q => q.1)

/-- Status resolution pass of `new_hand`: `pending_away → away`,
`pending_leaving → left`. -/
def resolveStatuses (l : List (String × Player)) : List (String × Player) :=
  l.map (fun q =>
    if q.2.status = "pending_away" then (q.1, { q.2 with status := "away" })
    else if q.2.status = "pending_leaving" then (q.1, { q.2 with status := "left" })
    else q)

/-- Move every `pending_leaving` player of `l` (with status updated to
`left`) into the departed archive `left`, in map order. -/
def addLeftPlayers : List (String × Player) → List (String × Player) → List (String × Player)
  | left, [] => left
  | left, q :: rest =>
    if q.2.status = "pending_leaving" then
      addLeftPlayers (insertA left q.1 { q.2 with status := "left" }) rest
    else addLeftPlayers left rest

/-- Removal loop of `new_hand` (and of the immediate-leave branch):
delete the pid from the player map and the rotation sequence, then
clamp the maker index to 0 if it fell out of range. -/
def removePid (t : Table) (pid : String) : Table :=
  let t1 := { t with players := eraseA t.players pid, seat_order := t.seat_order.erase pid }
  if t1.seat_order ≠ [] ∧ t1.seat_order.length ≤ t1.maker_idx then { t1 with maker_idx := 0 }
  else t1

/-- Deal `[deck.pop(), deck.pop()]` to every player, in map order. -/
def dealCards : List (String × Player) → List String → Option (List (String × Player) × List String)
  | [], deck => some ([], deck)
  | (k, p) :: rest, deck =>
    match popLast deck with
    | none => none
    | some (c1, d1) =>
      match popLast d1 with
      | none => none
      | some (c2, d2) =>
        match dealCards rest d2 with
        | none => none
        | some (rest1, d3) => some ((k, { p with cards := [c1, c2] }) :: rest1, d3)

/-- The pending-status phase of `Table.new_hand`: archive the hand,
resolve pending statuses (archiving the leavers), then run the removal
loop over the pending leavers. -/
def preDealTable (t : Table) (now : ℚ) : Table :=
  let t0 := archiveHand t now
  let t1 := { t0 with players := resolveStatuses t0.players,
                      left_players := addLeftPlayers t0.left_players t0.players }
  (pendingLeavers t0).foldl removePid t1

/-- `Table.new_hand`: archive, resolve pending statuses, remove leavers,
reset the hand state, install the freshly shuffled `newDeck`, and deal
two hidden cards to every remaining player.  `none` means the Python
code would have raised while dealing (deck exhausted). -/
def new_hand (t : Table) (newDeck : List String) (now : ℚ) : Option Table :=
  let t2 := preDealTable t now
  let t3 := { t2 with hand_number := t2.hand_number + 1, deck := newDeck, community := [],
                      round_num := 0, trades := [], quotes := [], round_trades := [] }
  match dealCards t3.players t3.deck with
  | none => none
  | some (ps, d) => some { t3 with players := ps, deck := d }

/-- Set the status of a seated player (no-op on an absent pid, where the
Python raises a KeyError without mutating anything). -/
def setStatus (l : List (String × Player)) (pid : String) (st : String) :
    List (String × Player) :=
  match lookupA l pid with
  | none => l
  | some p => updateA l pid { p with status := st }

/-- The mid-hand predicate: `round_num > 0 or table.quotes`. -/
def midHand (t : Table) : Prop := 0 < t.round_num ∨ t.quotes ≠ []

instance (t : Table) : Decidable (midHand t) := by
  unfold midHand
  infer_instance

/-- The quote handler: returns the (possibly unchanged) table plus an
error detail on rejection. -/
def quoteHandler (t : Table) (pid : String) (bid ask : ℚ) : Table × Option String :=
  if maker_pid t ≠ some pid then (t, some "Only maker can quote")
  else if t.quotes.any (fun q => q.round = t.round_num) then
    (t, some "You have already set a market price for this round")
  else if ask ≤ bid then (t, some "Ask must be higher than bid")
  else ({ t with quotes := t.quotes ++ [⟨bid, ask, t.round_num, pid⟩] }, none)

/-- Trade rejection test: the maker may not trade; nobody trades twice
in a round. -/
def tradeReject (t : Table) (pid : String) : Option String :=
  if maker_pid t = some pid then some "Market maker cannot trade"
  else if pid ∈ t.round_trades then some "You have already traded this round"
  else none

/-- Append an accepted trade to the trade log and the per-round set. -/
def tradeAppend (t : Table) (pid side : String) (price : ℚ) : Table :=
  { t with trades := t.trades ++ [⟨pid, side, price, t.round_num⟩],
           round_trades := t.round_trades ++ [pid] }

/-- Auto-advance block of the trade handler: when the round is complete,
advance it; on reaching round 4 settle, rotate the maker and start the
next hand (with the externally supplied shuffled deck). -/
def tradeAdvance (t : Table) (newDeck : List String) (now : ℚ) : Option Table :=
  if all_players_traded t then
    if t.round_num < 4 then
      match next_round t with
      | none => none
      | some t1 =>
        if t1.round_num = 4 then new_hand (rotate_maker (settle t1)) newDeck now
        else some t1
    else some t
  else some t

/-- The complete trade handler. -/
def tradeHandler (t : Table) (pid side : String) (price : ℚ) (newDeck : List String) (now : ℚ) :
    Option (Table × Option String) :=
  match tradeReject t pid with
  | some e => some (t, some e)
  | none => (tradeAdvance (tradeAppend t pid side price) newDeck now).map (fun t1 => (t1, none))

/-- The leave handler: mid-hand the player becomes `pending_leaving`;
otherwise the archival steps run synchronously. -/
def leaveHandler (t : Table) (pid : String) : Table :=
  if midHand t then { t with players := setStatus t.players pid "pending_leaving" }
  else
    match lookupA t.players pid with
    | none => t
    | some p =>
      let t1 := { t with left_players := insertA t.left_players pid { p with status := "left" } }
      removePid t1 pid

/-- The away handler. -/
def awayHandler (t : Table) (pid : String) : Table :=
  if midHand t then { t with players := setStatus t.players pid "pending_away" }
  else { t with players := setStatus t.players pid "away" }

/-- The join_back handler. -/
def joinBackHandler (t : Table) (pid : String) : Table :=
  match lookupA t.players pid with
  | none => t
  | some p =>
    if p.status = "pending_away" ∨ p.status = "pending_leaving" then
      { t with players := setStatus t.players pid "active" }
    else if p.status = "away" ∧ t.round_num = 0 then
      { t with players := setStatus t.players pid "active" }
    else t

/-- Seats currently occupied by non-departed players. -/
def occupiedSeats (t : Table) : List Nat :=
  (t.players.filter (fun q => q.2.status ≠ "left")).map (fun q => q.2.seat)

/-- Free seats in 1..7, in ascending order. -/
def availableSeats (t : Table) : List Nat :=
  (List.range' 1 7).filter (fun s => s ∉ occupiedSeats t)

/-- The join handler.  `seat` is the randomly chosen free seat and
`newPid` the freshly minted uuid; `deck`/`now` feed the potential
auto-started hand.  The boolean is `true` on a successful join;
`none` again means a raise while dealing. -/
def joinHandler (t : Table) (name : String) (buyIn : ℚ) (seat : Nat) (newPid : String)
    (deck : List String) (now : ℚ) : Option (Table × Bool) :=
  if name = "" then some (t, false)
  else if 20 < name.length then some (t, false)
  else if buyIn < 1 ∨ 10000 < buyIn then some (t, false)
  else if t.players.any (fun q => lowerStr q.2.name = lowerStr name ∧ q.2.status ≠ "left") then
    some (t, false)
  else if 7 ≤ (t.players.filter (fun q => q.2.status ≠ "left")).length then some (t, false)
  else if availableSeats t = [] then some (t, false)
  else
    let pl : Player :=
      { pid := newPid, name := name, seat := seat, stack := buyIn, buy_in := buyIn,
        pnl := 0, cards := [], status := "active", last_seen := none }
    let t1 := { t with players := insertA t.players newPid pl,
                       seat_order := if newPid ∈ t.seat_order then t.seat_order
                                     else t.seat_order ++ [newPid] }
    if 2 ≤ (t1.players.filter (fun q => q.2.status = "active")).length ∧
        t1.round_num = 0 ∧ t1.community = [] then
      (new_hand t1 deck now).map (fun t2 => (t2, true))
    else some (t1, true)

/-- Reconnection of a seated player on websocket open: clear
`last_seen` and reactivate unless the status is `away` or the dead
`leaving` status. -/
def reconnectUpdate (t : Table) (pid : String) : Table :=
  match lookupA t.players pid with
  | none => t
  | some p =>
    let p1 := { p with last_seen := none }
    let p2 := if p1.status = "away" ∨ p1.status = "leaving" then p1
              else { p1 with status := "active" }
    { t with players := updateA t.players pid p2 }

/-- On websocket disconnect: stamp `last_seen`, keep the player seated. -/
def disconnectUpdate (t : Table) (pid : String) (now : ℚ) : Table :=
  match lookupA t.players pid with
  | none => t
  | some p => { t with players := updateA t.players pid { p with last_seen := some now } }

/-- A player record as serialized by `Player.to_public`; `cards` is
present only when `reveal_cards` was set. -/
structure PublicPlayer where
  pid : String
  name : String
  seat : Nat
  stack : ℚ
  buy_in : ℚ
  pnl : ℚ
  status : String
  cards : Option (List String)
  has_left : Bool
  deriving DecidableEq

/-- `Player.to_public`. -/
def to_public (p : Player) (reveal_cards : Bool) : PublicPlayer :=
  { pid := p.pid, name := p.name, seat := p.seat, stack := p.stack, buy_in := p.buy_in,
    pnl := p.pnl, status := p.status,
    cards := if reveal_cards then some p.cards else none, has_left := false }

/-- `Table.get_all_players_for_leaderboard`: seated then departed
players, never revealing cards. -/
def leaderboard (t : Table) : List PublicPlayer :=
  t.players.map (fun q => to_public q.2 false) ++
    t.left_players.map (fun q => { to_public q.2 false with has_left := true })

/-- The personalized full-state snapshot a given recipient receives
(`broadcast_all_states` body, also `push_state`): only the recipient's
own entry carries cards, and only when the recipient is seated. -/
structure StateMsg where
  round : Nat
  community : List String
  players : List PublicPlayer
  all_players : List PublicPlayer
  maker : Option String
  quotes : List Quote
  trades : List Trade
  hand_number : Nat
  deriving DecidableEq

/-- `reveal_pid = pid if pid in table.players else None`. -/
def revealPid (t : Table) (recipient : String) : Option String :=
  if (lookupA t.players recipient).isSome then some recipient else none

/-- Build the snapshot for one recipient. -/
def personalState (t : Table) (recipient : String) : StateMsg :=
  { round := t.round_num
    community := t.community
    players := t.players.map (fun q =>
      to_public q.2 (decide (some q.2.pid = revealPid t recipient)))
    all_players := leaderboard t
    maker := maker_pid t
    quotes := t.quotes
    trades := t.trades
    hand_number := t.hand_number }

/-- The reachable table states: the initial empty table, closed under
every message handler (with shuffles, seats and fresh pids supplied
nondeterministically) and the connection-lifecycle updates. -/
inductive Reach : Table → Prop where
  | init (tid : String) (deck : List String) (hdeck : deck.Perm fresh_deck) :
      Reach (initTable tid deck)
  | join (t : Table) (name : String) (buyIn : ℚ) (seat : Nat) (newPid : String)
      (deck : List String) (now : ℚ) (t' : Table) (ok : Bool) (ht : Reach t)
      (hseat : seat ∈ availableSeats t)
      (hfresh : lookupA t.players newPid = none)
      (hfresh2 : newPid ∉ t.seat_order)
      (hdeck : deck.Perm fresh_deck)
      (hres : joinHandler t name buyIn seat newPid deck now = some (t', ok)) :
      Reach t'
  | quote (t : Table) (pid : String) (bid ask : ℚ) (ht : Reach t) :
      Reach (quoteHandler t pid bid ask).1
  | trade (t : Table) (pid side : String) (price : ℚ) (deck : List String) (now : ℚ)
      (t' : Table) (e : Option String) (ht : Reach t)
      (hdeck : deck.Perm fresh_deck)
      (hres : tradeHandler t pid side price deck now = some (t', e)) :
      Reach t'
  | leave (t : Table) (pid : String) (ht : Reach t) (hp : (lookupA t.players pid).isSome) :
      Reach (leaveHandler t pid)
  | away (t : Table) (pid : String) (ht : Reach t) (hp : (lookupA t.players pid).isSome) :
      Reach (awayHandler t pid)
  | joinBack (t : Table) (pid : String) (ht : Reach t) :
      Reach (joinBackHandler t pid)
  | reconnect (t : Table) (pid : String) (ht : Reach t) :
      Reach (reconnectUpdate t pid)
  | disconnect (t : Table) (pid : String) (now : ℚ) (ht : Reach t) :
      Reach (disconnectUpdate t pid now)

/-! ### Association-list lemmas -/

theorem lookupA_eq_none_iff {α : Type} (l : List (String × α)) (k : String) :
    lookupA l k = none ↔ k ∉ l.map Prod.fst := by
  induction l with
  | nil => simp [lookupA]
  | cons q rest ih =>
    obtain ⟨k', v⟩ := q
    by_cases h : k' = k
    · subst h
      simp [lookupA]
    · have hne : k ≠ k' := fun hh => h hh.symm
      simp [lookupA, h, ih, hne]

theorem lookupA_isSome_iff {α : Type} (l : List (String × α)) (k : String) :
    (lookupA l k).isSome ↔ k ∈ l.map Prod.fst := by
  rw [Option.isSome_iff_ne_none, ne_eq, lookupA_eq_none_iff, not_not]

theorem updateA_of_lookupA_none {α : Type} {l : List (String × α)} {k : String}
    (h : lookupA l k = none) (a : α) : updateA l k a = l := by
  induction l with
  | nil => simp [updateA]
  | cons q rest ih =>
    obtain ⟨k', v⟩ := q
    by_cases hk : k' = k
    · simp [lookupA, hk] at h
    · simp only [lookupA, hk, if_false] at h
      simp [updateA, hk, ih h]

theorem lookupA_updateA_self {α : Type} {l : List (String × α)} {k : String} {p : α}
    (h : lookupA l k = some p) (a : α) : lookupA (updateA l k a) k = some a := by
  induction l with
  | nil => simp [lookupA] at h
  | cons q rest ih =>
    obtain ⟨k', v⟩ := q
    by_cases hk : k' = k
    · simp [lookupA, updateA, hk]
    · simp only [lookupA, hk, if_false] at h
      simp [lookupA, updateA, hk, ih h]

theorem lookupA_updateA_ne {α : Type} (l : List (String × α)) {k k' : String}
    (h : k' ≠ k) (a : α) : lookupA (updateA l k a) k' = lookupA l k' := by
  induction l with
  | nil => simp [lookupA, updateA]
  | cons q rest ih =>
    obtain ⟨k0, v⟩ := q
    by_cases hk : k0 = k
    · subst hk
      have hne : ¬ k0 = k' := fun hh => h hh.symm
      simp [lookupA, updateA, hne]
    · by_cases hk' : k0 = k' <;> simp [lookupA, updateA, hk, hk', ih, h]

theorem keys_updateA {α : Type} (l : List (String × α)) (k : String) (a : α) :
    (updateA l k a).map Prod.fst = l.map Prod.fst := by
  induction l with
  | nil => simp [updateA]
  | cons q rest ih =>
    obtain ⟨k', v⟩ := q
    by_cases hk : k' = k <;> simp [updateA, hk, ih]

theorem keys_eraseA {α : Type} (l : List (String × α)) (k : String) :
    (eraseA l k).map Prod.fst = (l.map Prod.fst).erase k := by
  induction l with
  | nil => simp [eraseA]
  | cons q rest ih =>
    obtain ⟨k', v⟩ := q
    by_cases hk : k' = k
    · subst hk
      simp [eraseA, List.erase_cons]
    · simp [eraseA, hk, List.erase_cons, ih]

theorem lookupA_eraseA_self {α : Type} {l : List (String × α)} (hnd : (l.map Prod.fst).Nodup)
    (k : String) : lookupA (eraseA l k) k = none := by
  rw [lookupA_eq_none_iff, keys_eraseA]
  exact fun hmem => (List.Nodup.not_mem_erase hnd) hmem

theorem mem_keys_insertA {α : Type} (l : List (String × α)) (k k' : String) (a : α) :
    k' ∈ (insertA l k a).map Prod.fst ↔ k' ∈ l.map Prod.fst ∨ k' = k := by
  induction l with
  | nil => simp [insertA]
  | cons q rest ih =>
    obtain ⟨k0, v⟩ := q
    by_cases hk : k0 = k
    · subst hk
      have he : insertA ((k0, v) :: rest) k0 a = (k0, a) :: rest := by
        simp [insertA]
      rw [he]
      simp only [List.map_cons, List.mem_cons]
      tauto
    · simp only [insertA, if_neg hk, List.map_cons, List.mem_cons, ih]
      tauto

theorem lookupA_insertA_self {α : Type} (l : List (String × α)) (k : String) (a : α) :
    lookupA (insertA l k a) k = some a := by
  induction l with
  | nil => simp [insertA, lookupA]
  | cons q rest ih =>
    obtain ⟨k0, v⟩ := q
    by_cases hk : k0 = k <;> simp [insertA, lookupA, hk, ih]

/-! ### Settlement: zero sum (C1) and the per-player pnl formula (C5) -/

/-- Total of a money field over all seated players. -/
def sumBy (f : Player → ℚ) (l : List (String × Player)) : ℚ :=
  (l.map (fun q => f q.2)).sum

theorem sumBy_updateA {f : Player → ℚ} {l : List (String × Player)} {k : String} {p : Player}
    (h : lookupA l k = some p) (a : Player) :
    sumBy f (updateA l k a) = sumBy f l - f p + f a := by
  induction l with
  | nil => simp [lookupA] at h
  | cons q rest ih =>
    obtain ⟨k', v⟩ := q
    by_cases hk : k' = k
    · subst hk
      simp only [lookupA, if_true, eq_self_iff_true] at h
      rw [Option.some.injEq] at h
      subst h
      have hu : updateA ((k', v) :: rest) k' a = (k', a) :: rest := by
        simp [updateA]
      rw [hu]
      simp only [sumBy, List.map_cons, List.sum_cons]
      ring
    · simp only [lookupA, hk, if_false] at h
      simp only [updateA, hk, if_false, sumBy, List.map_cons, List.sum_cons]
      have := ih h
      simp only [sumBy] at this
      rw [this]
      ring

theorem elimIfNeg_pnl (p : Player) : (elimIfNeg p).pnl = p.pnl := by
  unfold elimIfNeg
  split <;> rfl

theorem elimIfNeg_stack (p : Player) : (elimIfNeg p).stack = p.stack := by
  unfold elimIfNeg
  split <;> rfl

theorem elimIfNeg_cards (p : Player) : (elimIfNeg p).cards = p.cards := by
  unfold elimIfNeg
  split <;> rfl

theorem settleTradeStep_eq (total : ℚ) (ps : List (String × Player)) (mp : ℚ) {tr : Trade}
    {p : Player} (hlk : lookupA ps tr.pid = some p) :
    settleTradeStep total (ps, mp) tr =
      (updateA ps tr.pid
        (elimIfNeg { p with pnl := p.pnl + tradePnl total tr,
                            stack := p.stack + tradePnl total tr }),
       mp - tradePnl total tr) := by
  simp only [settleTradeStep, hlk]

/-- The settlement loop keeps `Σ pnl + maker_adjustment` and
`Σ stack + maker_adjustment` constant. -/
theorem settle_fold_sums (total : ℚ) (trs : List Trade) :
    ∀ (ps : List (String × Player)) (mp : ℚ),
      sumBy Player.pnl (trs.foldl (settleTradeStep total) (ps, mp)).1
          + (trs.foldl (settleTradeStep total) (ps, mp)).2
        = sumBy Player.pnl ps + mp
      ∧ sumBy Player.stack (trs.foldl (settleTradeStep total) (ps, mp)).1
          + (trs.foldl (settleTradeStep total) (ps, mp)).2
        = sumBy Player.stack ps + mp := by
  induction trs with
  | nil => intro ps mp; simp
  | cons tr rest ih =>
    intro ps mp
    simp only [List.foldl_cons]
    rcases hlk : lookupA ps tr.pid with _ | p
    · simpa [settleTradeStep, hlk] using ih ps mp
    · rw [settleTradeStep_eq total ps mp hlk]
      obtain ⟨ih1, ih2⟩ := ih (updateA ps tr.pid _) (mp - tradePnl total tr)
      constructor
      · rw [ih1, sumBy_updateA hlk, elimIfNeg_pnl]
        show sumBy Player.pnl ps - p.pnl + (p.pnl + tradePnl total tr)
            + (mp - tradePnl total tr) = sumBy Player.pnl ps + mp
        ring
      · rw [ih2, sumBy_updateA hlk, elimIfNeg_stack]
        show sumBy Player.stack ps - p.stack + (p.stack + tradePnl total tr)
            + (mp - tradePnl total tr) = sumBy Player.stack ps + mp
        ring

/-- The settlement loop does not change the set of seated pids. -/
theorem settle_fold_keys (total : ℚ) (trs : List Trade) :
    ∀ (ps : List (String × Player)) (mp : ℚ),
      (trs.foldl (settleTradeStep total) (ps, mp)).1.map Prod.fst = ps.map Prod.fst := by
  induction trs with
  | nil => intro ps mp; rfl
  | cons tr rest ih =>
    intro ps mp
    simp only [List.foldl_cons]
    rcases hlk : lookupA ps tr.pid with _ | p
    · simpa [settleTradeStep, hlk] using ih ps mp
    · rw [settleTradeStep_eq total ps mp hlk, ih, keys_updateA]

/-- C1.  Settlement is zero-sum: whenever the maker is seated (as in
every state where `settle` runs), the total of all players' pnl and the
total of all players' stack are unchanged by `Table.settle`, i.e. the
applied deltas, the maker's single aggregate adjustment included, sum
to zero. -/
theorem C1_settle_zero_sum (t : Table)
    (h : ∃ m, maker_pid t = some m ∧ (lookupA t.players m).isSome) :
    sumBy Player.pnl (settle t).players = sumBy Player.pnl t.players
      ∧ sumBy Player.stack (settle t).players = sumBy Player.stack t.players := by
  obtain ⟨m, hm, hsome⟩ := h
  set total := evaluate_total t with htotal
  set res := t.trades.foldl (settleTradeStep total) (t.players, 0) with hres
  have hkeys : res.1.map Prod.fst = t.players.map Prod.fst :=
    settle_fold_keys total t.trades t.players 0
  have hsome1 : (lookupA res.1 m).isSome := by
    rw [lookupA_isSome_iff, hkeys, ← lookupA_isSome_iff]
    exact hsome
  obtain ⟨mk, hmk⟩ := Option.isSome_iff_exists.mp hsome1
  have hsums := settle_fold_sums total t.trades t.players 0
  have hse : settle t = { t with players := (updateA res.1 m
      (elimIfNeg { mk with pnl := mk.pnl + res.2, stack := mk.stack + res.2 })) } := by
    simp only [settle, ← htotal, ← hres, hm, hmk]
  rw [hse]
  constructor
  · show sumBy Player.pnl (updateA res.1 m _) = sumBy Player.pnl t.players
    rw [sumBy_updateA hmk, elimIfNeg_pnl]
    have h1 := hsums.1
    show sumBy Player.pnl res.1 - mk.pnl + (mk.pnl + res.2) = sumBy Player.pnl t.players
    linarith
  · show sumBy Player.stack (updateA res.1 m _) = sumBy Player.stack t.players
    rw [sumBy_updateA hmk, elimIfNeg_stack]
    have h2 := hsums.2
    show sumBy Player.stack res.1 - mk.stack + (mk.stack + res.2) = sumBy Player.stack t.players
    linarith

/-- A concrete two-player table about to settle (witness input). -/
def wPlayerM : Player :=
  { pid := "M", name := "mia", seat := 1, stack := 100, buy_in := 100, pnl := 0,
    cards := ["AC", "2C"], status := "active", last_seen := none }

/-- Second witness player. -/
def wPlayerB : Player :=
  { pid := "B", name := "bo", seat := 2, stack := 100, buy_in := 100, pnl := 0,
    cards := ["3C", "4C"], status := "active", last_seen := none }

/-- Witness table for C1: maker `M`, one trade by `B`. -/
def W1 : Table :=
  { initTable "w" [] with players := [("M", wPlayerM), ("B", wPlayerB)],
                          seat_order := ["M", "B"], maker_idx := 0, community := ["5C"],
                          round_num := 4, trades := [⟨"B", "buy", 7, 0⟩] }

/-- Witness for C1 at the concrete table `W1`. -/
theorem C1_settle_zero_sum_witness :
    (∃ m, maker_pid W1 = some m ∧ (lookupA W1.players m).isSome)
      ∧ (sumBy Player.pnl (settle W1).players = sumBy Player.pnl W1.players
         ∧ sumBy Player.stack (settle W1).players = sumBy Player.stack W1.players) :=
  ⟨⟨"M", by decide, by decide⟩, C1_settle_zero_sum W1 ⟨"M", by decide, by decide⟩⟩

/-- Pnl owed to player `k` from their own trades of the hand. -/
def tradesPnlFor (t : Table) (k : String) : ℚ :=
  ((t.trades.filter (fun tr => tr.pid = k)).map (tradePnl (evaluate_total t))).sum

/-- Pnl summed over the trades whose pid is currently seated (exactly the
trades the settlement loop applies). -/
def seatedTradesPnl (t : Table) : ℚ :=
  ((t.trades.filter (fun tr => (lookupA t.players tr.pid).isSome)).map
    (tradePnl (evaluate_total t))).sum

/-- Pnl summed over ALL trades of the hand (what the claim, as stated,
prescribes as the negated maker adjustment). -/
def allTradesPnl (t : Table) : ℚ :=
  (t.trades.map (tradePnl (evaluate_total t))).sum

/-- Per-key effect of the settlement loop: each key's pnl and stack grow
by the summed pnl of that key's trades. -/
theorem settle_fold_lookup (total : ℚ) (trs : List Trade) :
    ∀ (ps : List (String × Player)) (mp : ℚ) (k : String),
      (lookupA (trs.foldl (settleTradeStep total) (ps, mp)).1 k).map
          (fun p => (p.pnl, p.stack))
        = (lookupA ps k).map (fun p =>
            (p.pnl + ((trs.filter (fun tr => tr.pid = k)).map (tradePnl total)).sum,
             p.stack + ((trs.filter (fun tr => tr.pid = k)).map (tradePnl total)).sum)) := by
  induction trs with
  | nil =>
    intro ps mp k
    rcases h : lookupA ps k with _ | p <;> simp [h]
  | cons tr rest ih =>
    intro ps mp k
    simp only [List.foldl_cons]
    rcases hlk : lookupA ps tr.pid with _ | p
    · by_cases hk : tr.pid = k
      · subst hk
        have h0 : settleTradeStep total (ps, mp) tr = (ps, mp) := by
          simp only [settleTradeStep, hlk]
        rw [h0, ih ps mp tr.pid, hlk]
        simp
      · have h0 : settleTradeStep total (ps, mp) tr = (ps, mp) := by
          simp only [settleTradeStep, hlk]
        have hfc : List.filter (fun tr0 => decide (tr0.pid = k)) (tr :: rest)
            = List.filter (fun tr0 => decide (tr0.pid = k)) rest := by
          simp [List.filter_cons, hk]
        rw [h0, ih ps mp k, hfc]
    · rw [settleTradeStep_eq total ps mp hlk]
      by_cases hk : tr.pid = k
      · subst hk
        rw [ih _ _ tr.pid, lookupA_updateA_self hlk, hlk]
        have hfc : List.filter (fun tr0 => decide (tr0.pid = tr.pid)) (tr :: rest)
            = tr :: List.filter (fun tr0 => decide (tr0.pid = tr.pid)) rest := by
          simp [List.filter_cons]
        rw [hfc]
        simp only [Option.map_some', Option.some.injEq, Prod.mk.injEq, elimIfNeg_pnl,
          elimIfNeg_stack, List.map_cons, List.sum_cons]
        constructor
        · show p.pnl + tradePnl total tr + _ = p.pnl + (tradePnl total tr + _)
          ring
        · show p.stack + tradePnl total tr + _ = p.stack + (tradePnl total tr + _)
          ring
      · have hfc : List.filter (fun tr0 => decide (tr0.pid = k)) (tr :: rest)
            = List.filter (fun tr0 => decide (tr0.pid = k)) rest := by
          simp [List.filter_cons, hk]
        rw [ih _ _ k, lookupA_updateA_ne ps (fun hh => hk hh.symm), hfc]

/-- The maker-adjustment accumulator of the settlement loop equals the
negated sum of pnl over the trades whose pid is seated. -/
theorem settle_fold_mp (total : ℚ) (trs : List Trade) :
    ∀ (ps : List (String × Player)) (mp : ℚ),
      (trs.foldl (settleTradeStep total) (ps, mp)).2
        = mp - ((trs.filter (fun tr => (lookupA ps tr.pid).isSome)).map (tradePnl total)).sum := by
  induction trs with
  | nil => intro ps mp; simp
  | cons tr rest ih =>
    intro ps mp
    simp only [List.foldl_cons]
    rcases hlk : lookupA ps tr.pid with _ | p
    · have h0 : settleTradeStep total (ps, mp) tr = (ps, mp) := by
        simp only [settleTradeStep, hlk]
      rw [h0, ih ps mp]
      simp [List.filter_cons, hlk]
    · rw [settleTradeStep_eq total ps mp hlk, ih]
      have hkeys : ∀ x, (lookupA (updateA ps tr.pid
          (elimIfNeg { p with pnl := p.pnl + tradePnl total tr,
                              stack := p.stack + tradePnl total tr })) x).isSome
          = (lookupA ps x).isSome := by
        intro x
        by_cases hx : x = tr.pid
        · subst hx
          rw [lookupA_updateA_self hlk, hlk]
          rfl
        · rw [lookupA_updateA_ne ps hx]
      have hfe : List.filter (fun tr0 => (lookupA (updateA ps tr.pid
          (elimIfNeg { p with pnl := p.pnl + tradePnl total tr,
                              stack := p.stack + tradePnl total tr })) tr0.pid).isSome) rest
          = List.filter (fun tr0 => (lookupA ps tr0.pid).isSome) rest := by
        apply List.filter_congr
        intro x _
        rw [hkeys x.pid]
      rw [hfe]
      have : List.filter (fun tr0 => (lookupA ps tr0.pid).isSome) (tr :: rest)
          = tr :: List.filter (fun tr0 => (lookupA ps tr0.pid).isSome) rest := by
        simp [List.filter_cons, hlk]
      rw [this]
      simp only [List.map_cons, List.sum_cons]
      ring

/-- C5 (amended).  At settlement `total` is the sum of community card
values plus all currently seated players' hidden card values; for every
trade whose pid is STILL SEATED, `pnl = ±(total - price)` is applied to
that player's profit/loss and stack, and the negated sum of pnl over
exactly those applied trades is applied once to the maker (trades of a
departed or never-seated pid are skipped). -/
theorem C5_settlement_formula (t : Table) {m : String}
    (hm : maker_pid t = some m) (hmem : (lookupA t.players m).isSome) :
    evaluate_total t = (t.community.map card_value).sum
        + (t.players.map (fun q => (q.2.cards.map card_value).sum)).sum
      ∧ ∀ k p, lookupA t.players k = some p →
          ∃ p', lookupA (settle t).players k = some p'
            ∧ p'.pnl = p.pnl + tradesPnlFor t k + (if k = m then -(seatedTradesPnl t) else 0)
            ∧ p'.stack = p.stack + tradesPnlFor t k
                + (if k = m then -(seatedTradesPnl t) else 0) := by
  constructor
  · rfl
  intro k p hk
  set total := evaluate_total t with htotal
  set res := t.trades.foldl (settleTradeStep total) (t.players, 0) with hres
  have hsome1 : (lookupA res.1 m).isSome := by
    rw [lookupA_isSome_iff, hres, settle_fold_keys, ← lookupA_isSome_iff]
    exact hmem
  obtain ⟨mk, hmk⟩ := Option.isSome_iff_exists.mp hsome1
  have hse : settle t = { t with players := (updateA res.1 m
      (elimIfNeg { mk with pnl := mk.pnl + res.2, stack := mk.stack + res.2 })) } := by
    simp only [settle, ← htotal, ← hres, hm, hmk]
  have hmp : res.2 = -(seatedTradesPnl t) := by
    rw [hres, settle_fold_mp]
    simp [seatedTradesPnl, ← htotal]
  have hflk := settle_fold_lookup total t.trades t.players 0 k
  rw [← hres] at hflk
  rw [hk, Option.map_some'] at hflk
  rcases hlk1 : lookupA res.1 k with _ | p1
  · rw [hlk1] at hflk
    simp at hflk
  rw [hlk1, Option.map_some', Option.some.injEq, Prod.mk.injEq] at hflk
  obtain ⟨hp1, hs1⟩ := hflk
  rw [hse]
  by_cases hkm : k = m
  · subst hkm
    rw [hlk1] at hmk
    rw [Option.some.injEq] at hmk
    subst hmk
    refine ⟨elimIfNeg { p1 with pnl := p1.pnl + res.2, stack := p1.stack + res.2 }, ?_, ?_, ?_⟩
    · show lookupA (updateA res.1 k _) k = _
      exact lookupA_updateA_self hlk1 _
    · rw [elimIfNeg_pnl]
      show p1.pnl + res.2 = _
      rw [hp1, hmp, if_pos rfl]
      simp [tradesPnlFor, ← htotal]
    · rw [elimIfNeg_stack]
      show p1.stack + res.2 = _
      rw [hs1, hmp, if_pos rfl]
      simp [tradesPnlFor, ← htotal]
  · refine ⟨p1, ?_, ?_, ?_⟩
    · show lookupA (updateA res.1 m _) k = some p1
      rw [lookupA_updateA_ne res.1 hkm, hlk1]
    · rw [hp1, if_neg hkm]
      simp [tradesPnlFor, ← htotal]
    · rw [hs1, if_neg hkm]
      simp [tradesPnlFor, ← htotal]

/-- Counterexample input for C5 as stated: the trade log holds a trade
by `"G"`, who is not in the player map (reachable e.g. for a spectator
connection that traded: the trade handler never checks that the sender
is seated). -/
def W5 : Table :=
  { initTable "w5" [] with players := [("M", wPlayerM)], seat_order := ["M"], maker_idx := 0,
                           round_num := 4, trades := [⟨"G", "buy", 5, 0⟩] }

/-- C5 counterexample: at `W5`, `"G"`'s trade is in the hand's trade log
with pnl `total - 5 = -2`, yet settlement applies nothing for it — `"G"`
has no player record afterwards, and the maker's applied delta is `0`,
not the negated all-trades sum `2` the claim prescribes. -/
theorem C5_counterexample :
    W5.trades = [⟨"G", "buy", 5, 0⟩]
      ∧ lookupA (settle W5).players "G" = none
      ∧ maker_pid W5 = some "M"
      ∧ (lookupA W5.players "M").map Player.pnl = some 0
      ∧ (lookupA (settle W5).players "M").map Player.pnl = some 0
      ∧ -(allTradesPnl W5) = 2
      ∧ (0 : ℚ) ≠ 2 := by
  refine ⟨rfl, ?_, rfl, rfl, ?_, ?_, by norm_num⟩
  · simp [settle, W5, wPlayerM, initTable, settleTradeStep, lookupA, updateA, elimIfNeg,
      maker_pid, evaluate_total, card_value, rankValue]
  · simp [settle, W5, wPlayerM, initTable, settleTradeStep, lookupA, updateA, elimIfNeg,
      maker_pid, evaluate_total, card_value, rankValue]
    norm_num
  · simp [allTradesPnl, W5, wPlayerM, initTable, tradePnl, evaluate_total, card_value, rankValue]
    norm_num

/-- Witness for the amended C5 at the concrete table `W1`. -/
theorem C5_settlement_formula_witness :
    maker_pid W1 = some "M" ∧ (lookupA W1.players "M").isSome
      ∧ lookupA W1.players "B" = some wPlayerB
      ∧ ∃ p', lookupA (settle W1).players "B" = some p'
          ∧ p'.pnl = wPlayerB.pnl + tradesPnlFor W1 "B"
              + (if "B" = "M" then -(seatedTradesPnl W1) else 0)
          ∧ p'.stack = wPlayerB.stack + tradesPnlFor W1 "B"
              + (if "B" = "M" then -(seatedTradesPnl W1) else 0) :=
  ⟨by decide, by decide, by decide,
    (C5_settlement_formula W1 (by decide) (by decide)).2 "B" wPlayerB (by decide)⟩

/-! ### C3: quote protocol -/

/-- C3.  A quote is rejected, leaving the quote log unchanged, when the
actor is not the current maker, or a quote tagged to the current round
already exists, or ask ≤ bid; otherwise `{bid, ask, round, maker}` is
appended, and the at-most-one-quote-per-round property is preserved
(the accepted quote's `maker` field is the current maker by the first
guard). -/
theorem C3_quote_protocol (t : Table) (pid : String) (bid ask : ℚ) :
    (maker_pid t ≠ some pid →
        quoteHandler t pid bid ask = (t, some "Only maker can quote"))
      ∧ (maker_pid t = some pid → (∃ q ∈ t.quotes, q.round = t.round_num) →
        quoteHandler t pid bid ask
          = (t, some "You have already set a market price for this round"))
      ∧ (maker_pid t = some pid → (∀ q ∈ t.quotes, q.round ≠ t.round_num) → ask ≤ bid →
        quoteHandler t pid bid ask = (t, some "Ask must be higher than bid"))
      ∧ (maker_pid t = some pid → (∀ q ∈ t.quotes, q.round ≠ t.round_num) → bid < ask →
        quoteHandler t pid bid ask
          = ({ t with quotes := t.quotes ++ [⟨bid, ask, t.round_num, pid⟩] }, none))
      ∧ (∀ r, (t.quotes.filter (fun q => q.round = r)).length ≤ 1 →
        ((quoteHandler t pid bid ask).1.quotes.filter (fun q => q.round = r)).length ≤ 1) := by
  refine ⟨?_, ?_, ?_, ?_, ?_⟩
  · intro hm
    simp [quoteHandler, hm]
  · intro hm hex
    have hany : t.quotes.any (fun q => q.round = t.round_num) = true := by
      simp only [List.any_eq_true, decide_eq_true_eq]
      exact hex
    simp [quoteHandler, hm, hany]
  · intro hm hnone hba
    have hany : t.quotes.any (fun q => q.round = t.round_num) = false := by
      rw [List.any_eq_false]
      intro q hq
      simp [hnone q hq]
    simp [quoteHandler, hm, hany, hba]
  · intro hm hnone hba
    have hany : t.quotes.any (fun q => q.round = t.round_num) = false := by
      rw [List.any_eq_false]
      intro q hq
      simp [hnone q hq]
    simp [quoteHandler, hm, hany, not_le.mpr hba]
  · intro r hr
    unfold quoteHandler
    split
    · exact hr
    split
    · exact hr
    split
    · exact hr
    rename_i hm hany hba
    show ((t.quotes ++ [(⟨bid, ask, t.round_num, pid⟩ : Quote)]).filter
        (fun q => q.round = r)).length ≤ 1
    rw [List.filter_append]
    by_cases hrr : r = t.round_num
    · subst hrr
      have hempty : t.quotes.filter (fun q => q.round = t.round_num) = [] := by
        rw [List.filter_eq_nil_iff]
        intro q hq hdec
        rw [decide_eq_true_eq] at hdec
        apply hany
        simp only [List.any_eq_true, decide_eq_true_eq]
        exact ⟨q, hq, hdec⟩
      rw [hempty]
      simp
    · have hne : ¬ t.round_num = r := fun hh => hrr hh.symm
      have hone : ([(⟨bid, ask, t.round_num, pid⟩ : Quote)].filter (fun q => q.round = r)) = [] := by
        simp [List.filter_cons, hne]
      rw [hone, List.append_nil]
      exact hr

/-- Witness table for the quote/trade handler claims: maker `M`, one
other seated player `B`, a fresh hand. -/
def WQ : Table :=
  { initTable "wq" ["9C", "8C", "7C"] with
      players := [("M", wPlayerM), ("B", wPlayerB)],
      seat_order := ["M", "B"], maker_idx := 0, round_num := 0 }

/-- Witness for C3 at `WQ`: the maker's first quote with bid 10 < ask 12
is accepted and appended. -/
theorem C3_quote_protocol_witness :
    maker_pid WQ = some "M" ∧ (∀ q ∈ WQ.quotes, q.round ≠ WQ.round_num) ∧ (10 : ℚ) < 12
      ∧ quoteHandler WQ "M" 10 12
          = ({ WQ with quotes := WQ.quotes ++ [⟨10, 12, WQ.round_num, "M"⟩] }, none) :=
  ⟨by decide, by decide, by norm_num,
    (C3_quote_protocol WQ "M" 10 12).2.2.2.1 (by decide) (by decide) (by norm_num)⟩

/-! ### C4: trade protocol -/

/-- C4.  A trade is rejected, with the trade log and traded-this-round
set unchanged, when the actor is the maker or has already traded this
round; otherwise `{pid, side, price, round}` is appended exactly once
and the pid is added to the traded-this-round set, and (given the
invariant that current-round trade pids are recorded in the set) no
player ends up with two trade-log entries for the same round. -/
theorem C4_trade_protocol (t : Table) (pid side : String) (price : ℚ) (deck : List String)
    (now : ℚ) :
    (maker_pid t = some pid →
        tradeHandler t pid side price deck now = some (t, some "Market maker cannot trade"))
      ∧ (maker_pid t ≠ some pid → pid ∈ t.round_trades →
        tradeHandler t pid side price deck now
          = some (t, some "You have already traded this round"))
      ∧ (maker_pid t ≠ some pid → pid ∉ t.round_trades →
        (tradeAppend t pid side price).trades = t.trades ++ [⟨pid, side, price, t.round_num⟩]
          ∧ (tradeAppend t pid side price).round_trades = t.round_trades ++ [pid]
          ∧ tradeHandler t pid side price deck now
              = (tradeAdvance (tradeAppend t pid side price) deck now).map (fun t1 => (t1, none)))
      ∧ ((∀ tr ∈ t.trades, tr.round = t.round_num → tr.pid ∈ t.round_trades) →
         (∀ k, (t.trades.filter (fun tr => tr.pid = k ∧ tr.round = t.round_num)).length ≤ 1) →
         maker_pid t ≠ some pid → pid ∉ t.round_trades →
         (∀ tr ∈ (tradeAppend t pid side price).trades,
            tr.round = (tradeAppend t pid side price).round_num →
              tr.pid ∈ (tradeAppend t pid side price).round_trades)
           ∧ (∀ k, ((tradeAppend t pid side price).trades.filter
                (fun tr => tr.pid = k ∧ tr.round = (tradeAppend t pid side price).round_num)).length
              ≤ 1)) := by
  refine ⟨?_, ?_, ?_, ?_⟩
  · intro hm
    simp [tradeHandler, tradeReject, hm]
  · intro hm hin
    simp [tradeHandler, tradeReject, hm, hin]
  · intro hm hnin
    refine ⟨rfl, rfl, ?_⟩
    simp [tradeHandler, tradeReject, hm, hnin]
  · intro hlink hcount hm hnin
    constructor
    · intro tr htr hround
      simp only [tradeAppend, List.mem_append, List.mem_singleton] at htr
      simp only [tradeAppend] at hround
      show tr.pid ∈ t.round_trades ++ [pid]
      rcases htr with htr | htr
      · exact List.mem_append_left _ (hlink tr htr hround)
      · subst htr
        exact List.mem_append_right _ (by simp)
    · intro k
      simp only [tradeAppend, List.filter_append]
      rw [List.length_append]
      by_cases hk : k = pid
      · subst hk
        have hempty : t.trades.filter (fun tr => tr.pid = k ∧ tr.round = t.round_num) = [] := by
          rw [List.filter_eq_nil_iff]
          intro tr htr
          simp only [decide_eq_true_eq, not_and]
          intro hpid hround
          exact absurd (hpid ▸ hlink tr htr hround) hnin
        rw [hempty]
        simp
      · have hne : ¬ pid = k := fun hh => hk hh.symm
        have hone : ([(⟨pid, side, price, t.round_num⟩ : Trade)].filter
            (fun tr => tr.pid = k ∧ tr.round = t.round_num)) = [] := by
          simp [List.filter_cons, hne]
        rw [hone]
        simpa using hcount k

/-- Witness for C4 at `WQ`: `B`'s first trade of the round is appended
exactly once. -/
theorem C4_trade_protocol_witness :
    maker_pid WQ ≠ some "B" ∧ "B" ∉ WQ.round_trades
      ∧ ((tradeAppend WQ "B" "buy" 11).trades = WQ.trades ++ [⟨"B", "buy", 11, WQ.round_num⟩]
        ∧ (tradeAppend WQ "B" "buy" 11).round_trades = WQ.round_trades ++ ["B"]
        ∧ tradeHandler WQ "B" "buy" 11 ["6C"] 0
            = (tradeAdvance (tradeAppend WQ "B" "buy" 11) ["6C"] 0).map (fun t1 => (t1, none))) :=
  ⟨by decide, by decide,
    (C4_trade_protocol WQ "B" "buy" 11 ["6C"] 0).2.2.1 (by decide) (by decide)⟩

/-! ### C10: trade acceptance ignores the quote log -/

/-- C10.  The trade handler's accept/reject decision never consults the
quote log: the rejection test is invariant under replacing the quote
log, and a trade from a non-maker who has not yet traded this round is
accepted (appended to the trade log) even when no quote at all has been
posted. -/
theorem C10_trade_ignores_quotes (t : Table) (pid side : String) (price : ℚ)
    (deck : List String) (now : ℚ) :
    (∀ qs : List Quote, tradeReject { t with quotes := qs } pid = tradeReject t pid)
      ∧ (maker_pid t ≠ some pid → pid ∉ t.round_trades → t.quotes = [] →
        tradeHandler t pid side price deck now
            = (tradeAdvance (tradeAppend t pid side price) deck now).map (fun t1 => (t1, none))
          ∧ (tradeAppend t pid side price).trades
              = t.trades ++ [⟨pid, side, price, t.round_num⟩]) := by
  constructor
  · intro qs
    rfl
  · intro hm hnin _
    exact ⟨by simp [tradeHandler, tradeReject, hm, hnin], rfl⟩

/-- Witness for C10 at `WQ` (whose quote log is empty). -/
theorem C10_trade_ignores_quotes_witness :
    maker_pid WQ ≠ some "B" ∧ "B" ∉ WQ.round_trades ∧ WQ.quotes = []
      ∧ (tradeHandler WQ "B" "sell" 9 ["6C"] 0
          = (tradeAdvance (tradeAppend WQ "B" "sell" 9) ["6C"] 0).map (fun t1 => (t1, none))
        ∧ (tradeAppend WQ "B" "sell" 9).trades = WQ.trades ++ [⟨"B", "sell", 9, WQ.round_num⟩]) :=
  ⟨by decide, by decide, by decide,
    (C10_trade_ignores_quotes WQ "B" "sell" 9 ["6C"] 0).2 (by decide) (by decide) (by decide)⟩

/-! ### C9: hidden-card privacy of personalized snapshots -/

/-- C9.  In the personalized full-state snapshot built for a recipient,
an entry carries hidden cards only if it is the recipient's own entry
(and the recipient is seated); the leaderboard view never carries
cards.  Hence no snapshot delivered to a different identity contains
another player's hidden cards. -/
theorem C9_card_privacy (t : Table) (recipient : String) :
    (∀ e ∈ (personalState t recipient).players, e.cards ≠ none → e.pid = recipient)
      ∧ (∀ e ∈ (personalState t recipient).all_players, e.cards = none) := by
  constructor
  · intro e he hc
    simp only [personalState, List.mem_map] at he
    obtain ⟨q, hq, he⟩ := he
    subst he
    rcases hb : decide (some q.2.pid = revealPid t recipient) with _ | _
    · rw [hb] at hc
      simp [to_public] at hc
    · rw [decide_eq_true_eq] at hb
      unfold revealPid at hb
      split at hb
      · rw [Option.some.injEq] at hb
        simpa [to_public] using hb
      · simp at hb
  · intro e he
    simp only [personalState, leaderboard, List.mem_append, List.mem_map] at he
    rcases he with ⟨q, _, he⟩ | ⟨q, _, he⟩ <;> subst he <;> rfl

/-- Witness for C9 at `W1` with recipient `"M"`: `M`'s own entry is the
revealed one and its pid is the recipient's. -/
theorem C9_card_privacy_witness :
    to_public wPlayerM true ∈ (personalState W1 "M").players
      ∧ (to_public wPlayerM true).cards ≠ none
      ∧ (to_public wPlayerM true).pid = "M" :=
  ⟨by decide, by decide,
    (C9_card_privacy W1 "M").1 (to_public wPlayerM true) (by decide) (by decide)⟩

/-! ### C2: round advance exactly on round completion -/

/-- The spec's round-complete condition: every seated player with
status active / pending_away / pending_leaving other than the current
maker appears in the traded-this-round set. -/
def roundComplete (t : Table) : Prop :=
  ∀ q ∈ t.players, q.2.status ∈ playingStatuses → maker_pid t ≠ some q.1 →
    q.1 ∈ t.round_trades

/-- Counting argument: for duplicate-free lists, the length test the
code runs is equivalent to set inclusion. -/
theorem filter_length_ge_iff {l₁ l₂ : List String} (h₁ : l₁.Nodup) (h₂ : l₂.Nodup) :
    l₂.length ≤ (l₁.filter (fun x => x ∈ l₂)).length ↔ ∀ x ∈ l₂, x ∈ l₁ := by
  have hmemf : ∀ x, x ∈ l₁.filter (fun x => x ∈ l₂) ↔ x ∈ l₁ ∧ x ∈ l₂ := by
    intro x
    simp [List.mem_filter]
  have hfnd : (l₁.filter (fun x => x ∈ l₂)).Nodup := h₁.filter _
  have hcard1 : (l₁.filter (fun x => x ∈ l₂)).toFinset.card
      = (l₁.filter (fun x => x ∈ l₂)).length := List.toFinset_card_of_nodup hfnd
  have hcard2 : l₂.toFinset.card = l₂.length := List.toFinset_card_of_nodup h₂
  have hsub : (l₁.filter (fun x => x ∈ l₂)).toFinset ⊆ l₂.toFinset := by
    intro x hx
    rw [List.mem_toFinset] at hx ⊢
    exact ((hmemf x).1 hx).2
  constructor
  · intro hlen x hx
    have hcle : l₂.toFinset.card ≤ (l₁.filter (fun x => x ∈ l₂)).toFinset.card := by
      rw [hcard1, hcard2]
      exact hlen
    have heq := Finset.eq_of_subset_of_card_le hsub hcle
    have hxf : x ∈ (l₁.filter (fun x => x ∈ l₂)).toFinset := by
      rw [heq]
      exact List.mem_toFinset.mpr hx
    exact ((hmemf x).1 (List.mem_toFinset.mp hxf)).1
  · intro hall
    have hsub2 : l₂.toFinset ⊆ (l₁.filter (fun x => x ∈ l₂)).toFinset := by
      intro x hx
      rw [List.mem_toFinset] at hx ⊢
      exact (hmemf x).2 ⟨hall x hx, hx⟩
    calc l₂.length = l₂.toFinset.card := hcard2.symm
      _ ≤ (l₁.filter (fun x => x ∈ l₂)).toFinset.card := Finset.card_le_card hsub2
      _ = (l₁.filter (fun x => x ∈ l₂)).length := hcard1

/-- The inclusion test over the non-maker pid list is the spec's
per-player round-complete condition. -/
theorem roundComplete_iff (t : Table) :
    (∀ x ∈ non_maker_pids t, x ∈ t.round_trades) ↔ roundComplete t := by
  unfold roundComplete
  constructor
  · intro h q hq hst hmk
    apply h
    unfold non_maker_pids active_pids
    rw [List.mem_filter]
    constructor
    · rw [List.mem_map]
      exact ⟨q, List.mem_filter.mpr ⟨hq, by simpa using hst⟩, rfl⟩
    · simpa using hmk
  · intro h x hx
    unfold non_maker_pids active_pids at hx
    rw [List.mem_filter] at hx
    obtain ⟨hx1, hx2⟩ := hx
    rw [List.mem_map] at hx1
    obtain ⟨q, hq, rfl⟩ := hx1
    rw [List.mem_filter] at hq
    exact h q hq.1 (by simpa using hq.2) (by simpa using hx2)

/-- The non-maker pid list has no duplicates when the player map's keys
have none. -/
theorem non_maker_pids_nodup (t : Table) (h : (t.players.map Prod.fst).Nodup) :
    (non_maker_pids t).Nodup := by
  apply List.Nodup.filter
  unfold active_pids
  have hsub : (t.players.filter (fun q => q.2.status ∈ playingStatuses)).map Prod.fst
      |>.Sublist (t.players.map Prod.fst) :=
    (List.filter_sublist t.players).map Prod.fst
  exact h.sublist hsub

theorem popLast_isSome {α : Type} {l : List α} (h : l ≠ []) :
    ∃ c d, popLast l = some (c, d) := by
  unfold popLast
  rcases hg : l.getLast? with _ | c
  · rw [List.getLast?_eq_none_iff] at hg
    exact absurd hg h
  · exact ⟨c, l.dropLast, rfl⟩

/-- C2.  After an accepted trade (actor not the maker and not yet in the
traded set), the round advances if and only if every seated player with
status in {active, pending_away, pending_leaving} other than the maker
appears in the (post-append) traded-this-round set — never earlier —
and advancing increments the round and clears the traded set. -/
theorem C2_round_advance (t : Table) (pid side : String) (price : ℚ) (deck : List String)
    (now : ℚ) (hkeys : (t.players.map Prod.fst).Nodup) (hrt : t.round_trades.Nodup)
    (hmk : maker_pid t ≠ some pid) (hnew : pid ∉ t.round_trades) (hr : t.round_num ≤ 3)
    (hdeck : t.deck ≠ []) :
    (all_players_traded (tradeAppend t pid side price) = true
        ↔ roundComplete (tradeAppend t pid side price))
      ∧ (all_players_traded (tradeAppend t pid side price) = false →
          tradeHandler t pid side price deck now = some (tradeAppend t pid side price, none)
            ∧ (tradeAppend t pid side price).round_num = t.round_num)
      ∧ (all_players_traded (tradeAppend t pid side price) = true →
          ∃ t1, next_round (tradeAppend t pid side price) = some t1
            ∧ t1.round_num = t.round_num + 1 ∧ t1.round_trades = []
            ∧ tradeHandler t pid side price deck now
                = ((if t1.round_num = 4 then new_hand (rotate_maker (settle t1)) deck now
                    else some t1).map (fun s => (s, none)))) := by
  set t' := tradeAppend t pid side price with ht'
  have hkeys' : (t'.players.map Prod.fst).Nodup := hkeys
  have hrt' : t'.round_trades.Nodup := by
    rw [ht']
    show (t.round_trades ++ [pid]).Nodup
    simp [List.nodup_append, hrt, hnew]
  have hreject : tradeReject t pid = none := by
    simp [tradeReject, hmk, hnew]
  have hhandler : tradeHandler t pid side price deck now
      = (tradeAdvance t' deck now).map (fun t1 => (t1, none)) := by
    simp [tradeHandler, hreject, ht']
  constructor
  · unfold all_players_traded
    rw [decide_eq_true_eq]
    rw [filter_length_ge_iff hrt' (non_maker_pids_nodup t' hkeys')]
    exact roundComplete_iff t'
  constructor
  · intro hfalse
    refine ⟨?_, rfl⟩
    rw [hhandler]
    unfold tradeAdvance
    rw [hfalse]
    rfl
  · intro htrue
    have hr' : t'.round_num = t.round_num := rfl
    have hdeck' : t'.deck = t.deck := rfl
    have hex : ∃ t1, next_round t' = some t1 ∧ t1.round_num = t.round_num + 1
        ∧ t1.round_trades = [] := by
      unfold next_round
      by_cases h3 : t'.round_num < 3
      · obtain ⟨c, d, hpop⟩ := popLast_isSome (hdeck' ▸ hdeck)
        rw [if_pos h3, hdeck', hpop]
        exact ⟨_, rfl, rfl, rfl⟩
      · rw [if_neg h3]
        exact ⟨_, rfl, rfl, rfl⟩
    obtain ⟨t1, hnr, hrnd, hcl⟩ := hex
    refine ⟨t1, hnr, hrnd, hcl, ?_⟩
    rw [hhandler]
    unfold tradeAdvance
    rw [htrue, if_pos (by decide), if_pos (by omega : t'.round_num < 4), hnr]

/-- Witness for C2 at `WQ`: `B` is the only required non-maker, so `B`'s
trade completes round 0 and advances it. -/
theorem C2_round_advance_witness :
    ((WQ.players.map Prod.fst).Nodup ∧ WQ.round_trades.Nodup
        ∧ maker_pid WQ ≠ some "B" ∧ "B" ∉ WQ.round_trades ∧ WQ.round_num ≤ 3 ∧ WQ.deck ≠ [])
      ∧ (all_players_traded (tradeAppend WQ "B" "buy" 11) = true
          ↔ roundComplete (tradeAppend WQ "B" "buy" 11)) :=
  ⟨⟨by decide, by decide, by decide, by decide, by decide, by decide⟩,
    (C2_round_advance WQ "B" "buy" 11 ["6C"] 0 (by decide) (by decide) (by decide) (by decide)
      (by decide) (by decide)).1⟩

/-! ### Reachability invariant: round/community/card-count shape -/

theorem mem_updateA {α : Type} {l : List (String × α)} {k : String} {a : α} {q : String × α}
    (h : q ∈ updateA l k a) : q ∈ l ∨ q.2 = a := by
  induction l with
  | nil => simp [updateA] at h
  | cons q0 rest ih =>
    obtain ⟨k0, v⟩ := q0
    by_cases hk : k0 = k
    · rw [updateA, if_pos hk] at h
      rcases List.mem_cons.mp h with h | h
      · exact Or.inr (by rw [h])
      · exact Or.inl (List.mem_cons_of_mem _ h)
    · rw [updateA, if_neg hk] at h
      rcases List.mem_cons.mp h with h | h
      · exact Or.inl (by rw [h]; exact List.mem_cons_self _ _)
      · rcases ih h with h | h
        · exact Or.inl (List.mem_cons_of_mem _ h)
        · exact Or.inr h

theorem mem_eraseA {α : Type} {l : List (String × α)} {k : String} {q : String × α}
    (h : q ∈ eraseA l k) : q ∈ l := by
  induction l with
  | nil => simp [eraseA] at h
  | cons q0 rest ih =>
    obtain ⟨k0, v⟩ := q0
    by_cases hk : k0 = k
    · rw [eraseA, if_pos hk] at h
      exact List.mem_cons_of_mem _ h
    · rw [eraseA, if_neg hk] at h
      rcases List.mem_cons.mp h with h | h
      · exact h ▸ List.mem_cons_self _ _
      · exact List.mem_cons_of_mem _ (ih h)

theorem mem_insertA {α : Type} {l : List (String × α)} {k : String} {a : α} {q : String × α}
    (h : q ∈ insertA l k a) : q ∈ l ∨ q = (k, a) := by
  induction l with
  | nil => simpa [insertA] using h
  | cons q0 rest ih =>
    obtain ⟨k0, v⟩ := q0
    by_cases hk : k0 = k
    · rw [insertA, if_pos hk] at h
      rcases List.mem_cons.mp h with h | h
      · exact Or.inr (by rw [h, hk])
      · exact Or.inl (List.mem_cons_of_mem _ h)
    · rw [insertA, if_neg hk] at h
      rcases List.mem_cons.mp h with h | h
      · exact Or.inl (h ▸ List.mem_cons_self _ _)
      · rcases ih h with h | h
        · exact Or.inl (List.mem_cons_of_mem _ h)
        · exact Or.inr h

theorem lookupA_mem {α : Type} {l : List (String × α)} {k : String} {v : α}
    (h : lookupA l k = some v) : (k, v) ∈ l := by
  induction l with
  | nil => simp [lookupA] at h
  | cons q0 rest ih =>
    obtain ⟨k0, v0⟩ := q0
    by_cases hk : k0 = k
    · rw [lookupA, if_pos hk] at h
      rw [Option.some.injEq] at h
      subst hk
      subst h
      exact List.mem_cons_self _ _
    · rw [lookupA, if_neg hk] at h
      exact List.mem_cons_of_mem _ (ih h)

/-- Every seated player holds 0 or 2 hidden cards. -/
def cardsOK (l : List (String × Player)) : Prop :=
  ∀ q ∈ l, q.2.cards.length = 0 ∨ q.2.cards.length = 2

theorem cardsOK_updateA {l : List (String × Player)} {pid : String} {a : Player}
    (h : cardsOK l) (ha : a.cards.length = 0 ∨ a.cards.length = 2) :
    cardsOK (updateA l pid a) := by
  intro q hq
  rcases mem_updateA hq with hq | hq
  · exact h q hq
  · rw [hq]
    exact ha

theorem cardsOK_setStatus (l : List (String × Player)) (pid st : String) (h : cardsOK l) :
    cardsOK (setStatus l pid st) := by
  unfold setStatus
  rcases hl : lookupA l pid with _ | p
  · exact h
  · exact cardsOK_updateA h (h (pid, p) (lookupA_mem hl))

/-- The shape invariant behind C6 (amended) and C7. -/
def Inv (t : Table) : Prop :=
  t.round_num ≤ 3 ∧ t.community.length = min t.round_num 3 ∧ cardsOK t.players

theorem dealCards_spec {ps : List (String × Player)} :
    ∀ {deck ps1 d}, dealCards ps deck = some (ps1, d) →
      (∀ q ∈ ps1, q.2.cards.length = 2) ∧ ps1.map Prod.fst = ps.map Prod.fst := by
  induction ps with
  | nil =>
    intro deck ps1 d h
    rw [dealCards, Option.some.injEq, Prod.mk.injEq] at h
    obtain ⟨h1, _⟩ := h
    subst h1
    constructor
    · intro q hq
      simp at hq
    · rfl
  | cons q0 rest ih =>
    intro deck ps1 d h
    obtain ⟨k, p⟩ := q0
    rw [dealCards] at h
    split at h
    · exact absurd h (by simp)
    rename_i c1 d1 hpop1
    split at h
    · exact absurd h (by simp)
    rename_i c2 d2 hpop2
    split at h
    · exact absurd h (by simp)
    rename_i rest1 d3 hdeal
    rw [Option.some.injEq, Prod.mk.injEq] at h
    obtain ⟨hps, _⟩ := h
    subst hps
    obtain ⟨ihc, ihk⟩ := ih hdeal
    constructor
    · intro q hq
      rcases List.mem_cons.mp hq with hq | hq
      · subst hq
        rfl
      · exact ihc q hq
    · simp [ihk]

theorem new_hand_spec {t : Table} {deck : List String} {now : ℚ} {t' : Table}
    (h : new_hand t deck now = some t') :
    t'.round_num = 0 ∧ t'.community = [] ∧ ∀ q ∈ t'.players, q.2.cards.length = 2 := by
  simp only [new_hand] at h
  split at h
  · exact absurd h (by simp)
  · rename_i ps d heq
    rw [Option.some.injEq] at h
    subst h
    exact ⟨rfl, rfl, (dealCards_spec heq).1⟩

theorem inv_new_hand {t : Table} {deck : List String} {now : ℚ} {t' : Table}
    (h : new_hand t deck now = some t') : Inv t' := by
  obtain ⟨h0, h1, h2⟩ := new_hand_spec h
  refine ⟨by omega, by rw [h0, h1]; rfl, ?_⟩
  intro q hq
  exact Or.inr (h2 q hq)

theorem inv_quote (t : Table) (pid : String) (bid ask : ℚ) (h : Inv t) :
    Inv (quoteHandler t pid bid ask).1 := by
  unfold quoteHandler
  split
  · exact h
  split
  · exact h
  split
  · exact h
  exact h

theorem inv_removePid (t : Table) (pid : String) (h : Inv t) : Inv (removePid t pid) := by
  unfold removePid
  obtain ⟨h1, h2, h3⟩ := h
  have hc : cardsOK (eraseA t.players pid) := fun q hq => h3 q (mem_eraseA hq)
  simp only []
  split
  · exact ⟨h1, h2, hc⟩
  · exact ⟨h1, h2, hc⟩

theorem inv_leave (t : Table) (pid : String) (h : Inv t) : Inv (leaveHandler t pid) := by
  unfold leaveHandler
  obtain ⟨h1, h2, h3⟩ := h
  split
  · exact ⟨h1, h2, cardsOK_setStatus _ _ _ h3⟩
  rcases hl : lookupA t.players pid with _ | p
  · exact ⟨h1, h2, h3⟩
  · exact inv_removePid _ pid ⟨h1, h2, h3⟩

theorem inv_away (t : Table) (pid : String) (h : Inv t) : Inv (awayHandler t pid) := by
  unfold awayHandler
  obtain ⟨h1, h2, h3⟩ := h
  split
  · exact ⟨h1, h2, cardsOK_setStatus _ _ _ h3⟩
  · exact ⟨h1, h2, cardsOK_setStatus _ _ _ h3⟩

theorem inv_joinBack (t : Table) (pid : String) (h : Inv t) : Inv (joinBackHandler t pid) := by
  unfold joinBackHandler
  obtain ⟨h1, h2, h3⟩ := h
  split
  · exact ⟨h1, h2, h3⟩
  split
  · exact ⟨h1, h2, cardsOK_setStatus _ _ _ h3⟩
  split
  · exact ⟨h1, h2, cardsOK_setStatus _ _ _ h3⟩
  · exact ⟨h1, h2, h3⟩

theorem inv_reconnect (t : Table) (pid : String) (h : Inv t) : Inv (reconnectUpdate t pid) := by
  unfold reconnectUpdate
  obtain ⟨h1, h2, h3⟩ := h
  rcases hl : lookupA t.players pid with _ | p
  · exact ⟨h1, h2, h3⟩
  · refine ⟨h1, h2, cardsOK_updateA h3 ?_⟩
    have hp := h3 (pid, p) (lookupA_mem hl)
    split <;> simpa using hp

theorem inv_disconnect (t : Table) (pid : String) (now : ℚ) (h : Inv t) :
    Inv (disconnectUpdate t pid now) := by
  unfold disconnectUpdate
  obtain ⟨h1, h2, h3⟩ := h
  rcases hl : lookupA t.players pid with _ | p
  · exact ⟨h1, h2, h3⟩
  · refine ⟨h1, h2, cardsOK_updateA h3 ?_⟩
    simpa using h3 (pid, p) (lookupA_mem hl)

theorem settle_fold_cardsOK (total : ℚ) (trs : List Trade) :
    ∀ (ps : List (String × Player)) (mp : ℚ), cardsOK ps →
      cardsOK (trs.foldl (settleTradeStep total) (ps, mp)).1 := by
  induction trs with
  | nil => intro ps mp h; exact h
  | cons tr rest ih =>
    intro ps mp h
    simp only [List.foldl_cons]
    rcases hlk : lookupA ps tr.pid with _ | p
    · have h0 : settleTradeStep total (ps, mp) tr = (ps, mp) := by
        simp only [settleTradeStep, hlk]
      rw [h0]
      exact ih ps mp h
    · rw [settleTradeStep_eq total ps mp hlk]
      apply ih
      apply cardsOK_updateA h
      rw [elimIfNeg_cards]
      simpa using h (tr.pid, p) (lookupA_mem hlk)

theorem inv_settle (t : Table) (h : Inv t) : Inv (settle t) := by
  obtain ⟨h1, h2, h3⟩ := h
  have hfold := settle_fold_cardsOK (evaluate_total t) t.trades t.players 0 h3
  rcases hm : maker_pid t with _ | m
  · have hse : settle t = { t with players :=
        (t.trades.foldl (settleTradeStep (evaluate_total t)) (t.players, 0)).1 } := by
      simp only [settle, hm]
    rw [hse]
    exact ⟨h1, h2, hfold⟩
  rcases hmk : lookupA (t.trades.foldl (settleTradeStep (evaluate_total t)) (t.players, 0)).1 m
      with _ | mk
  · have hse : settle t = { t with players :=
        (t.trades.foldl (settleTradeStep (evaluate_total t)) (t.players, 0)).1 } := by
      simp only [settle, hm, hmk]
    rw [hse]
    exact ⟨h1, h2, hfold⟩
  · have hse : settle t = { t with players :=
        (updateA (t.trades.foldl (settleTradeStep (evaluate_total t)) (t.players, 0)).1 m
          (elimIfNeg { mk with
            pnl := mk.pnl + (t.trades.foldl (settleTradeStep (evaluate_total t)) (t.players, 0)).2,
            stack := mk.stack
              + (t.trades.foldl (settleTradeStep (evaluate_total t)) (t.players, 0)).2 })) } := by
      simp only [settle, hm, hmk]
    rw [hse]
    refine ⟨h1, h2, cardsOK_updateA hfold ?_⟩
    rw [elimIfNeg_cards]
    simpa using hfold _ (lookupA_mem hmk)

theorem inv_trade {t : Table} {pid side : String} {price : ℚ} {deck : List String} {now : ℚ}
    {t' : Table} {e : Option String} (h : Inv t)
    (hres : tradeHandler t pid side price deck now = some (t', e)) : Inv t' := by
  unfold tradeHandler at hres
  rcases hrej : tradeReject t pid with _ | err <;> rw [hrej] at hres
  case some =>
    rw [Option.some.injEq] at hres
    injection hres with hres1 hres2
    subst hres1
    exact h
  have hinv' : Inv (tradeAppend t pid side price) := h
  set tA := tradeAppend t pid side price with htA
  unfold tradeAdvance at hres
  by_cases hall : all_players_traded tA = true
  case neg =>
    rw [Bool.not_eq_true] at hall
    rw [hall] at hres
    simp only [Bool.false_eq_true, if_false, Option.map_some'] at hres
    rw [Option.some.injEq] at hres
    injection hres with hres1 hres2
    subst hres1
    exact hinv'
  rw [hall] at hres
  simp only [if_true] at hres
  have h4 : tA.round_num < 4 := by
    obtain ⟨hx, _, _⟩ := hinv'
    omega
  rw [if_pos h4] at hres
  rcases hnr : next_round tA with _ | t1 <;> rw [hnr] at hres
  · simp at hres
  have hred : (match some t1 with
      | none => none
      | some t1 =>
        if t1.round_num = 4 then new_hand (rotate_maker (settle t1)) deck now else some t1)
      = (if t1.round_num = 4 then new_hand (rotate_maker (settle t1)) deck now
         else some t1) := rfl
  rw [hred] at hres
  obtain ⟨hx1, hx2, hx3⟩ := hinv'
  have ht1round : t1.round_num = tA.round_num + 1 ∧ t1.round_trades = []
      ∧ cardsOK t1.players ∧ t1.community.length = min t1.round_num 3 := by
    unfold next_round at hnr
    by_cases h3 : tA.round_num < 3
    · rw [if_pos h3] at hnr
      rcases hp : popLast tA.deck with _ | ⟨c, d⟩ <;> rw [hp] at hnr
      · simp at hnr
      rw [Option.some.injEq] at hnr
      subst hnr
      refine ⟨rfl, rfl, hx3, ?_⟩
      show (tA.community ++ [c]).length = min (tA.round_num + 1) 3
      rw [List.length_append, hx2]
      simp
      omega
    · rw [if_neg h3] at hnr
      rw [Option.some.injEq] at hnr
      subst hnr
      refine ⟨rfl, rfl, hx3, ?_⟩
      show tA.community.length = min (tA.round_num + 1) 3
      rw [hx2]
      omega
  obtain ⟨ht1a, _, ht1c, ht1d⟩ := ht1round
  by_cases h44 : t1.round_num = 4
  · rw [if_pos h44] at hres
    rcases hnh : new_hand (rotate_maker (settle t1)) deck now with _ | t2 <;> rw [hnh] at hres
    · simp at hres
    simp only [Option.map_some'] at hres
    rw [Option.some.injEq] at hres
    injection hres with hres1 hres2
    subst hres1
    exact inv_new_hand hnh
  · rw [if_neg h44] at hres
    simp only [Option.map_some'] at hres
    rw [Option.some.injEq] at hres
    injection hres with hres1 hres2
    subst hres1
    exact ⟨by omega, ht1d, ht1c⟩

theorem inv_join {t : Table} {name : String} {buyIn : ℚ} {seat : Nat} {newPid : String}
    {deck : List String} {now : ℚ} {t' : Table} {ok : Bool} (h : Inv t)
    (hres : joinHandler t name buyIn seat newPid deck now = some (t', ok)) : Inv t' := by
  obtain ⟨h1, h2, h3⟩ := h
  unfold joinHandler at hres
  split at hres
  · rw [Option.some.injEq] at hres
    injection hres with hres1 hres2
    subst hres1
    exact ⟨h1, h2, h3⟩
  split at hres
  · rw [Option.some.injEq] at hres
    injection hres with hres1 hres2
    subst hres1
    exact ⟨h1, h2, h3⟩
  split at hres
  · rw [Option.some.injEq] at hres
    injection hres with hres1 hres2
    subst hres1
    exact ⟨h1, h2, h3⟩
  split at hres
  · rw [Option.some.injEq] at hres
    injection hres with hres1 hres2
    subst hres1
    exact ⟨h1, h2, h3⟩
  split at hres
  · rw [Option.some.injEq] at hres
    injection hres with hres1 hres2
    subst hres1
    exact ⟨h1, h2, h3⟩
  split at hres
  · rw [Option.some.injEq] at hres
    injection hres with hres1 hres2
    subst hres1
    exact ⟨h1, h2, h3⟩
  have hc1 : cardsOK (insertA t.players newPid
      { pid := newPid, name := name, seat := seat, stack := buyIn, buy_in := buyIn,
        pnl := 0, cards := [], status := "active", last_seen := none }) := by
    intro q hq
    rcases mem_insertA hq with hq | hq
    · exact h3 q hq
    · rw [hq]
      exact Or.inl rfl
  simp only [] at hres
  split at hres
  · rcases hnh : new_hand _ deck now with _ | t2 <;> rw [hnh] at hres
    · simp at hres
    simp only [Option.map_some'] at hres
    rw [Option.some.injEq] at hres
    injection hres with hres1 hres2
    subst hres1
    exact inv_new_hand hnh
  · rw [Option.some.injEq] at hres
    injection hres with hres1 hres2
    subst hres1
    exact ⟨h1, h2, hc1⟩

/-- Every reachable table state satisfies the shape invariant. -/
theorem inv_reach {t : Table} (h : Reach t) : Inv t := by
  induction h with
  | init tid deck hdeck =>
    exact ⟨by simp [initTable], rfl, by intro q hq; simp [initTable] at hq⟩
  | join t name buyIn seat newPid deck now t' ok ht hseat hfresh hfresh2 hdeck hres ih =>
    exact inv_join ih hres
  | quote t pid bid ask ht ih => exact inv_quote t pid bid ask ih
  | trade t pid side price deck now t' e ht hdeck hres ih => exact inv_trade ih hres
  | leave t pid ht hp ih => exact inv_leave t pid ih
  | away t pid ht hp ih => exact inv_away t pid ih
  | joinBack t pid ht ih => exact inv_joinBack t pid ih
  | reconnect t pid ht ih => exact inv_reconnect t pid ih
  | disconnect t pid now ht ih => exact inv_disconnect t pid now ih

/-- C7.  In every reachable table state the number of revealed community
cards equals `min(round, 3)`; and `next_round` always increments the
round counter, appending exactly one card popped from the deck when
`round < 3` and appending nothing when `round ≥ 3`. -/
theorem C7_community_length (t : Table) (h : Reach t) :
    t.community.length = min t.round_num 3
      ∧ (∀ (u t1 : Table), next_round u = some t1 →
          t1.round_num = u.round_num + 1
            ∧ (u.round_num < 3 → ∃ c d, popLast u.deck = some (c, d)
                ∧ t1.community = u.community ++ [c] ∧ t1.deck = d)
            ∧ (3 ≤ u.round_num → t1.community = u.community ∧ t1.deck = u.deck)) := by
  refine ⟨(inv_reach h).2.1, ?_⟩
  intro u t1 hnr
  unfold next_round at hnr
  by_cases h3 : u.round_num < 3
  · rw [if_pos h3] at hnr
    rcases hp : popLast u.deck with _ | ⟨c, d⟩ <;> rw [hp] at hnr
    · simp at hnr
    rw [Option.some.injEq] at hnr
    subst hnr
    exact ⟨rfl, fun _ => ⟨c, d, hp ▸ rfl, rfl, rfl⟩, fun hge => absurd h3 (by omega)⟩
  · rw [if_neg h3] at hnr
    rw [Option.some.injEq] at hnr
    subst hnr
    exact ⟨rfl, fun hlt => absurd hlt h3, fun _ => ⟨rfl, rfl⟩⟩

/-- Witness for C7 at the (reachable) initial table. -/
theorem C7_community_length_witness :
    Reach (initTable "t" fresh_deck)
      ∧ (initTable "t" fresh_deck).community.length
          = min (initTable "t" fresh_deck).round_num 3 :=
  ⟨Reach.init "t" fresh_deck (List.Perm.refl _),
    (C7_community_length _ (Reach.init "t" fresh_deck (List.Perm.refl _))).1⟩

/-! ### C6: hidden-card count, with a mid-hand-join counterexample -/

/-- A concrete run: fresh table (identity shuffle). -/
def RS0 : Table := initTable "t" fresh_deck

/-- Alice joins (seat 1, fresh pid `A`). -/
def RS1 : Table := ((joinHandler RS0 "alice" 1000 1 "A" fresh_deck 0).getD (RS0, false)).1

/-- Bob joins (seat 2, fresh pid `B`); the hand auto-starts and both
players are dealt 2 cards. -/
def RS2 : Table := ((joinHandler RS1 "bob" 1000 2 "B" fresh_deck 0).getD (RS0, false)).1

/-- Bob — the only required non-maker — trades at round 0 (no quote is
needed), so the round advances to 1. -/
def RS3 : Table := ((tradeHandler RS2 "B" "buy" 10 fresh_deck 0).getD (RS0, none)).1

/-- Carol joins mid-hand (round 1) and is dealt nothing. -/
def RS4 : Table := ((joinHandler RS3 "carol" 500 3 "C" fresh_deck 0).getD (RS0, false)).1

theorem reach_RS2 : Reach RS2 := by
  have h0 : Reach RS0 := Reach.init "t" fresh_deck (List.Perm.refl _)
  have h1 : Reach RS1 :=
    Reach.join RS0 "alice" 1000 1 "A" fresh_deck 0 RS1 true h0 (by decide) (by decide)
      (by decide) (List.Perm.refl _) (by decide)
  exact Reach.join RS1 "bob" 1000 2 "B" fresh_deck 0 RS2 true h1 (by decide) (by decide)
    (by decide) (List.Perm.refl _) (by decide)

theorem reach_RS4 : Reach RS4 := by
  have h3 : Reach RS3 :=
    Reach.trade RS2 "B" "buy" 10 fresh_deck 0 RS3 none reach_RS2 (List.Perm.refl _) (by decide)
  exact Reach.join RS3 "carol" 500 3 "C" fresh_deck 0 RS4 true h3 (by decide) (by decide)
    (by decide) (List.Perm.refl _) (by decide)

/-- A spectator connection (never-joined pid `G`) sends a trade at
`RS2`: the trade handler accepts it, since it never checks that the
sender is seated. -/
def RS5 : Table := ((tradeHandler RS2 "G" "buy" 10 fresh_deck 0).getD (RS0, none)).1

/-- Trades by a pid outside the player map occur in reachable states
(this is the situation in which `settle` skips a trade; see the C5
counterexample). -/
theorem orphan_trade_reachable :
    Reach RS5 ∧ RS5.trades = [⟨"G", "buy", 10, 0⟩] ∧ lookupA RS5.players "G" = none :=
  ⟨Reach.trade RS2 "G" "buy" 10 fresh_deck 0 RS5 none reach_RS2 (List.Perm.refl _) (by decide),
    by decide, by decide⟩

/-- C6 counterexample: the reachable state `RS4` is mid-hand
(round 1 > 0) yet the player `"C"`, who joined after the deal, holds 0
hidden cards, not 2 — the join handler never deals cards and a hand
only auto-starts at round 0 with no community cards. -/
theorem C6_counterexample :
    Reach RS4 ∧ 0 < RS4.round_num
      ∧ (lookupA RS4.players "C").map (fun p => p.cards.length) = some 0
      ∧ (0 : Nat) ≠ 2 :=
  ⟨reach_RS4, by decide, by decide, by decide⟩

/-- C6 (amended).  In every reachable table state, every player in the
player map holds exactly 2 hidden cards or exactly 0: players present
at the hand start hold 2 (dealt by `new_hand`), while a player who
joins mid-hand holds 0 until the next hand start. -/
theorem C6_cards_shape (t : Table) (h : Reach t) :
    ∀ q ∈ t.players, q.2.cards.length = 0 ∨ q.2.cards.length = 2 :=
  (inv_reach h).2.2

/-- Witness for the amended C6 at the reachable state `RS2`. -/
theorem C6_cards_shape_witness :
    Reach RS2 ∧ (∀ q ∈ RS2.players, q.2.cards.length = 0 ∨ q.2.cards.length = 2) :=
  ⟨reach_RS2, C6_cards_shape RS2 reach_RS2⟩

/-! ### C8: leave lifecycle -/

theorem lookupA_insertA_ne {α : Type} (l : List (String × α)) {k k' : String} (h : k' ≠ k)
    (a : α) : lookupA (insertA l k a) k' = lookupA l k' := by
  induction l with
  | nil =>
    have hne : ¬ k = k' := fun hh => h hh.symm
    simp [insertA, lookupA, hne]
  | cons q0 rest ih =>
    obtain ⟨k0, v⟩ := q0
    by_cases hk : k0 = k
    · subst hk
      have hne : ¬ k0 = k' := fun hh => h hh.symm
      simp [insertA, lookupA, hne]
    · by_cases hk' : k0 = k' <;> simp [insertA, lookupA, hk, hk', ih, h]

theorem addLeftPlayers_not_mem {left l : List (String × Player)} {pid : String}
    (h : pid ∉ l.map Prod.fst) : lookupA (addLeftPlayers left l) pid = lookupA left pid := by
  induction l generalizing left with
  | nil => rfl
  | cons q0 rest ih =>
    have hne : pid ≠ q0.1 := by
      intro hh
      exact h (by rw [hh]; exact List.mem_cons_self _ _)
    have hrest : pid ∉ rest.map Prod.fst := fun hh => h (List.mem_cons_of_mem _ hh)
    rw [addLeftPlayers]
    split
    · rw [ih hrest, lookupA_insertA_ne left hne]
    · exact ih hrest

theorem addLeftPlayers_mem {l : List (String × Player)} {pid : String} {p : Player}
    (hnd : (l.map Prod.fst).Nodup) (hp : lookupA l pid = some p)
    (hst : p.status = "pending_leaving") (left : List (String × Player)) :
    lookupA (addLeftPlayers left l) pid = some { p with status := "left" } := by
  induction l generalizing left with
  | nil => simp [lookupA] at hp
  | cons q0 rest ih =>
    obtain ⟨k0, v⟩ := q0
    by_cases hk : k0 = pid
    · subst hk
      rw [lookupA, if_pos rfl, Option.some.injEq] at hp
      subst hp
      have hnotin : k0 ∉ rest.map Prod.fst := by
        rw [List.map_cons] at hnd
        exact (List.nodup_cons.mp hnd).1
      rw [addLeftPlayers, if_pos (by simpa using hst)]
      rw [addLeftPlayers_not_mem hnotin, lookupA_insertA_self]
    · rw [lookupA, if_neg hk] at hp
      have hnd' : (rest.map Prod.fst).Nodup := by
        rw [List.map_cons] at hnd
        exact (List.nodup_cons.mp hnd).2
      rw [addLeftPlayers]
      split <;> exact ih hnd' hp _

theorem removePid_players (t : Table) (x : String) :
    (removePid t x).players = eraseA t.players x := by
  simp only [removePid]
  split <;> rfl

theorem removePid_seat (t : Table) (x : String) :
    (removePid t x).seat_order = t.seat_order.erase x := by
  simp only [removePid]
  split <;> rfl

theorem removePid_left (t : Table) (x : String) :
    (removePid t x).left_players = t.left_players := by
  simp only [removePid]
  split <;> rfl

theorem foldl_removePid_players (pids : List String) :
    ∀ t : Table, (pids.foldl removePid t).players
      = pids.foldl (fun acc x => eraseA acc x) t.players := by
  induction pids with
  | nil => intro t; rfl
  | cons y rest ih =>
    intro t
    simp only [List.foldl_cons]
    rw [ih, removePid_players]

theorem foldl_removePid_seat (pids : List String) :
    ∀ t : Table, (pids.foldl removePid t).seat_order
      = pids.foldl (fun acc x => acc.erase x) t.seat_order := by
  induction pids with
  | nil => intro t; rfl
  | cons y rest ih =>
    intro t
    simp only [List.foldl_cons]
    rw [ih, removePid_seat]

theorem foldl_removePid_left (pids : List String) :
    ∀ t : Table, (pids.foldl removePid t).left_players = t.left_players := by
  induction pids with
  | nil => intro t; rfl
  | cons y rest ih =>
    intro t
    simp only [List.foldl_cons]
    rw [ih, removePid_left]

theorem keys_foldl_eraseA {α : Type} (pids : List String) :
    ∀ l : List (String × α), (pids.foldl (fun acc x => eraseA acc x) l).map Prod.fst
      = pids.foldl (fun ks x => ks.erase x) (l.map Prod.fst) := by
  induction pids with
  | nil => intro l; rfl
  | cons y rest ih =>
    intro l
    simp only [List.foldl_cons]
    rw [ih, keys_eraseA]

theorem not_mem_foldl_erase_of_not_mem {x : String} (pids : List String) :
    ∀ {ks : List String}, x ∉ ks → x ∉ pids.foldl (fun ks y => ks.erase y) ks := by
  induction pids with
  | nil => intro ks h; exact h
  | cons y rest ih =>
    intro ks h
    simp only [List.foldl_cons]
    exact ih (fun hmem => h (List.mem_of_mem_erase hmem))

theorem not_mem_foldl_erase {x : String} (pids : List String) :
    ∀ {ks : List String}, ks.Nodup → x ∈ pids →
      x ∉ pids.foldl (fun ks y => ks.erase y) ks := by
  induction pids with
  | nil => intro ks _ hx; simp at hx
  | cons y rest ih =>
    intro ks hnd hx
    simp only [List.foldl_cons]
    by_cases hxy : x = y
    · subst hxy
      exact not_mem_foldl_erase_of_not_mem rest (hnd.not_mem_erase)
    · rcases List.mem_cons.mp hx with hx | hx
      · exact absurd hx hxy
      · exact ih (hnd.erase y) hx

theorem removePid_maker_lt (t : Table) (x : String) :
    (removePid t x).seat_order ≠ [] →
      (removePid t x).maker_idx < (removePid t x).seat_order.length := by
  simp only [removePid]
  split
  · rename_i hcond
    intro hne
    exact List.length_pos.mpr hne
  · rename_i hcond
    intro hne
    rw [not_and_or, not_not, not_le] at hcond
    rcases hcond with hcond | hcond
    · exact absurd hcond hne
    · exact hcond

theorem foldl_removePid_maker_lt (pids : List String) (hne : pids ≠ []) :
    ∀ t : Table, (pids.foldl removePid t).seat_order ≠ [] →
      (pids.foldl removePid t).maker_idx < (pids.foldl removePid t).seat_order.length := by
  induction pids with
  | nil => exact absurd rfl hne
  | cons y rest ih =>
    intro t
    simp only [List.foldl_cons]
    rcases hr : rest with _ | ⟨z, rest'⟩
    · simp only [List.foldl_nil]
      exact removePid_maker_lt t y
    · exact (hr ▸ ih (by simp [hr])) (removePid t y)

theorem keys_resolveStatuses (l : List (String × Player)) :
    (resolveStatuses l).map Prod.fst = l.map Prod.fst := by
  induction l with
  | nil => rfl
  | cons q0 rest ih =>
    simp only [resolveStatuses, List.map_cons] at ih ⊢
    split
    · rw [ih]
    split
    · rw [ih]
    · rw [ih]

theorem archiveHand_players (t : Table) (now : ℚ) : (archiveHand t now).players = t.players := by
  simp only [archiveHand]
  split <;> rfl

theorem archiveHand_seat (t : Table) (now : ℚ) :
    (archiveHand t now).seat_order = t.seat_order := by
  simp only [archiveHand]
  split <;> rfl

theorem archiveHand_left (t : Table) (now : ℚ) :
    (archiveHand t now).left_players = t.left_players := by
  simp only [archiveHand]
  split <;> rfl

theorem setStatus_eq {l : List (String × Player)} {pid : String} {p : Player}
    (hp : lookupA l pid = some p) (st : String) :
    setStatus l pid st = updateA l pid { p with status := st } := by
  unfold setStatus
  rw [hp]

theorem preDealTable_players (t : Table) (now : ℚ) :
    (preDealTable t now).players
      = (pendingLeavers (archiveHand t now)).foldl (fun acc x => eraseA acc x)
          (resolveStatuses (archiveHand t now).players) := by
  simp only [preDealTable]
  rw [foldl_removePid_players]

theorem preDealTable_seat (t : Table) (now : ℚ) :
    (preDealTable t now).seat_order
      = (pendingLeavers (archiveHand t now)).foldl (fun acc x => acc.erase x)
          (archiveHand t now).seat_order := by
  simp only [preDealTable]
  rw [foldl_removePid_seat]

theorem preDealTable_left (t : Table) (now : ℚ) :
    (preDealTable t now).left_players
      = addLeftPlayers (archiveHand t now).left_players (archiveHand t now).players := by
  simp only [preDealTable]
  rw [foldl_removePid_left]

theorem preDealTable_maker_lt (t : Table) (now : ℚ)
    (hne : pendingLeavers (archiveHand t now) ≠ []) :
    (preDealTable t now).seat_order ≠ [] →
      (preDealTable t now).maker_idx < (preDealTable t now).seat_order.length := by
  simp only [preDealTable]
  exact foldl_removePid_maker_lt _ hne _

/-- C8.  A leave request while mid-hand (round > 0 or quotes posted)
only sets the player's status to `pending_leaving`; the next hand-start
(`new_hand`) then archives the player with status `left`, removes them
from the player map and the rotation, and brings the maker index back
into range; a leave while not mid-hand applies the same archival steps
synchronously. -/
theorem C8_leave_lifecycle (t : Table) (pid : String) (p : Player)
    (hk : (t.players.map Prod.fst).Nodup) (hs : t.seat_order.Nodup)
    (hp : lookupA t.players pid = some p) :
    (midHand t →
      leaveHandler t pid
          = { t with players := updateA t.players pid { p with status := "pending_leaving" } }
        ∧ ((leaveHandler t pid).players.map Prod.fst) = t.players.map Prod.fst
        ∧ (leaveHandler t pid).seat_order = t.seat_order
        ∧ (leaveHandler t pid).left_players = t.left_players)
      ∧ (p.status = "pending_leaving" →
        ∀ deck now t', new_hand t deck now = some t' →
          lookupA t'.players pid = none
            ∧ pid ∉ t'.seat_order
            ∧ lookupA t'.left_players pid = some { p with status := "left" }
            ∧ (t'.seat_order ≠ [] → t'.maker_idx < t'.seat_order.length))
      ∧ (¬ midHand t →
        lookupA (leaveHandler t pid).players pid = none
          ∧ pid ∉ (leaveHandler t pid).seat_order
          ∧ lookupA (leaveHandler t pid).left_players pid = some { p with status := "left" }
          ∧ ((leaveHandler t pid).seat_order ≠ [] →
              (leaveHandler t pid).maker_idx < (leaveHandler t pid).seat_order.length)) := by
  refine ⟨?_, ?_, ?_⟩
  · intro hmid
    have he : leaveHandler t pid
        = { t with players := setStatus t.players pid "pending_leaving" } := by
      unfold leaveHandler
      rw [if_pos hmid]
    rw [he, setStatus_eq hp]
    refine ⟨rfl, ?_, rfl, rfl⟩
    show (updateA t.players pid _).map Prod.fst = t.players.map Prod.fst
    exact keys_updateA _ _ _
  · intro hst deck now t' hnh
    simp only [new_hand] at hnh
    split at hnh
    · exact absurd hnh (by simp)
    rename_i ps d hdeal
    rw [Option.some.injEq] at hnh
    subst hnh
    have hdealkeys : ps.map Prod.fst = (preDealTable t now).players.map Prod.fst :=
      (dealCards_spec hdeal).2
    have hleavers : pid ∈ pendingLeavers (archiveHand t now) := by
      unfold pendingLeavers
      rw [archiveHand_players]
      rw [List.mem_map]
      refine ⟨(pid, p), ?_, rfl⟩
      rw [List.mem_filter]
      exact ⟨lookupA_mem hp, by simpa using hst⟩
    constructor
    · show lookupA ps pid = none
      rw [lookupA_eq_none_iff, hdealkeys, preDealTable_players, keys_foldl_eraseA,
        keys_resolveStatuses, archiveHand_players]
      exact not_mem_foldl_erase _ hk hleavers
    constructor
    · show pid ∉ (preDealTable t now).seat_order
      rw [preDealTable_seat, archiveHand_seat]
      exact not_mem_foldl_erase _ hs hleavers
    constructor
    · show lookupA (preDealTable t now).left_players pid = some { p with status := "left" }
      rw [preDealTable_left, archiveHand_players]
      exact addLeftPlayers_mem hk hp hst _
    · show (preDealTable t now).seat_order ≠ [] →
          (preDealTable t now).maker_idx < (preDealTable t now).seat_order.length
      exact preDealTable_maker_lt t now
        (fun hnil => by rw [hnil] at hleavers; simp at hleavers)
  · intro hmid
    have he : leaveHandler t pid = removePid
        { t with left_players := insertA t.left_players pid { p with status := "left" } } pid := by
      unfold leaveHandler
      rw [if_neg hmid, hp]
    rw [he]
    refine ⟨?_, ?_, ?_, ?_⟩
    · rw [removePid_players]
      show lookupA (eraseA t.players pid) pid = none
      exact lookupA_eraseA_self hk pid
    · rw [removePid_seat]
      exact hs.not_mem_erase
    · rw [removePid_left]
      exact lookupA_insertA_self _ _ _
    · exact removePid_maker_lt _ pid

/-- Witness for C8 at `WQ` (not mid-hand): `B`'s leave is applied
synchronously — removed from map and rotation, archived as `left`. -/
theorem C8_leave_lifecycle_witness :
    ((WQ.players.map Prod.fst).Nodup ∧ WQ.seat_order.Nodup
        ∧ lookupA WQ.players "B" = some wPlayerB ∧ ¬ midHand WQ)
      ∧ (lookupA (leaveHandler WQ "B").players "B" = none
        ∧ "B" ∉ (leaveHandler WQ "B").seat_order
        ∧ lookupA (leaveHandler WQ "B").left_players "B"
            = some { wPlayerB with status := "left" }
        ∧ ((leaveHandler WQ "B").seat_order ≠ [] →
            (leaveHandler WQ "B").maker_idx < (leaveHandler WQ "B").seat_order.length)) :=
  ⟨⟨by decide, by decide, by decide, by decide⟩,
    (C8_leave_lifecycle WQ "B" wPlayerB (by decide) (by decide) (by decide)).2.2 (by decide)⟩

end CardsMM
